import Mathlib

/-!
Verification of the build/install tooling in this repository against its
specification.  The definitions below are shallow embeddings of the Python
source:

* `topological_sort`, `build_dependency_graph`, `extract_package_info` embed
  `depedencies/source/build_wheels.py` (class `WheelBuilder`).
* `python_pkg_installed`, `is_phase_complete`, `should_skip_phase`,
  `mark_phase_complete` embed `pythondroidruninstaller/common.py`.
* `apply_pandas_fix`, `scikit_version_py_fix`, `scikit_meson_build_fix`,
  `patch_grpcio_wheel` embed the source-fixing and wheel-patching methods of
  `WheelBuilder`.

Python dict/set iteration orders are modelled as explicit `List` parameters;
theorems about determinism quantify over all permutations of those lists.
Python strings are modelled as `String` (or `List Char` where that eases the
proofs); behaviour of subprocesses and of the import machinery is modelled by
explicit oracle records.  String primitives (lexicographic comparison,
lowercasing, substring search and replacement) are written as structural
recursions over the character data so that every definition evaluates inside
the kernel; each mirrors the corresponding CPython semantics on the ASCII
strings this program manipulates.
-/

/-! ### String primitives (structural, kernel-evaluable) -/

/-- Lexicographic comparison of char lists by code point, as CPython compares
`str` values. -/
def listLe : List Char → List Char → Bool
  | [], _ => true
  | _ :: _, [] => false
  | a :: as, b :: bs =>
    if a.toNat < b.toNat then true
    else if b.toNat < a.toNat then false
    else listLe as bs

/-- Python `s1 <= s2`. -/
def strLe (x y : String) : Bool := listLe x.data y.data

/-- Python `str.lower()` (ASCII range; all names in this program are ASCII). -/
def toLowerStr (s : String) : String := String.mk (s.data.map Char.toLower)

/-- Python `sub in s` on char lists: `pat` occurs contiguously in `s`. -/
def containsL (pat : List Char) : List Char → Bool
  | [] => pat.isEmpty
  | c :: rest => pat.isPrefixOf (c :: rest) || containsL pat rest

/-- Python `sub in s` on strings. -/
def containsStr (pat s : String) : Bool := containsL pat.data s.data

/-- Python `s.replace(pat, repl)` (all non-overlapping occurrences, scanned
left to right), written with explicit fuel; `replaceStr` passes enough fuel
that it never runs out for the non-empty patterns this program uses. -/
def replaceL (pat repl : List Char) : Nat → List Char → List Char
  | 0, s => s
  | _, [] => []
  | fuel + 1, c :: rest =>
    if pat.isPrefixOf (c :: rest) then
      repl ++ replaceL pat repl fuel (rest.drop (pat.length - 1))
    else c :: replaceL pat repl fuel rest

/-- Python `s.replace(pat, repl)` on strings. -/
def replaceStr (s pat repl : String) : String :=
  String.mk (replaceL pat.data repl.data s.data.length s.data)

/-! ### Constants from build_wheels.py -/

/-- `BUILD_TOOLS` from build_wheels.py: build tools installed first. -/
def BUILD_TOOLS : List String := ["Cython", "meson-python", "maturin"]

/-- `PYTHON_TRANSITIVE_DEPS` from build_wheels.py (dict modelled as an
association list in its literal order). -/
def PYTHON_TRANSITIVE_DEPS : List (String × List String) :=
  [("scipy", ["numpy"]),
   ("pandas", ["numpy"]),
   ("scikit-learn", ["numpy", "scipy"]),
   ("scikit_learn", ["numpy", "scipy"]),
   ("pyarrow", ["numpy"])]

/-- `NAME_NORMALIZATIONS` from build_wheels.py. -/
def NAME_NORMALIZATIONS : List (String × String) :=
  [("scikit-learn", "scikit_learn"),
   ("scikit_learn", "scikit-learn"),
   ("pydantic-core", "pydantic_core"),
   ("pydantic_core", "pydantic-core")]

/-- `table.get(key, default)` on an association list. -/
def lookupD {α : Type} (table : List (String × α)) (key : String) (default : α) : α :=
  match table.find? (fun p => p.1 == key) with
  | some p => p.2
  | none => default

/-! ### The queue ordering used by `topological_sort`

Python sorts the ready queue by the key
`(0 if x in [t.lower() for t in BUILD_TOOLS] else 1, x)`; `sorted` and
`list.sort` produce the unique list that is ordered by that key, since the
key is injective (its second component is the element itself). -/

/-- First component of the Python sort key. -/
def toolRank (x : String) : Nat :=
  if x ∈ BUILD_TOOLS.map toLowerStr then 0 else 1

/-- Boolean comparison realising Python's tuple-key sort order. -/
def keyLe (x y : String) : Bool :=
  decide (toolRank x < toolRank y) ||
    (decide (toolRank x = toolRank y) && strLe x y)

/-- The sort-key order as a `Prop` relation. -/
def KeyLe (x y : String) : Prop := keyLe x y = true

instance : DecidableRel KeyLe := fun x y => instDecidableEqBool (keyLe x y) true

/-- `queue_list.sort(key=...)` from topological_sort. -/
def sortQueue (q : List String) : List String :=
  q.insertionSort KeyLe

/-- The plain string order used by Python's `sorted(remaining)`. -/
def StrLe (x y : String) : Prop := strLe x y = true

instance : DecidableRel StrLe := fun x y => instDecidableEqBool (strLe x y) true

/-! ### Kahn's algorithm as written in `WheelBuilder.topological_sort` -/

/-- One pass of the inner `for dependent in reverse_graph.get(pkg, [])` loop:
decrement the dependent's in-degree; if it reaches 0, append it to the queue.
State is `(in_degree, queue)`. -/
def procDep (deps : List String) (deg : String → Int) (q : List String) :
    (String → Int) × List String :=
  deps.foldl
    (fun st d =>
      let deg' : String → Int := fun x => if x = d then st.1 x - 1 else st.1 x
      if deg' d = 0 then (deg', st.2 ++ [d]) else (deg', st.2))
    (deg, q)

/-- The `while queue:` loop.  Each iteration re-sorts the queue (as the Python
code does at the top of the loop body), pops the head, appends it to the
result and processes its dependents.  `fuel` bounds the number of iterations;
`topological_sort` passes a bound that the loop can never exhaust (each node
enters the queue at most once because its in-degree strictly decreases). -/
def topoLoop (rev : String → List String) :
    Nat → List String → (String → Int) → List String → List String
  | 0, _, _, result => result
  | fuel + 1, queue, deg, result =>
    match sortQueue queue with
    | [] => result
    | pkg :: rest =>
      let st := procDep (rev pkg) deg rest
      topoLoop rev fuel st.2 st.1 (result ++ [pkg])

/-- Builds `in_degree` and `reverse_graph` exactly as the first half of
`topological_sort` does: for every `(pkg, deps)` entry of `graph` and every
`dep ∈ deps` with `dep ∈ all_packages`, increment `in_degree[pkg]` and append
`pkg` to `reverse_graph[dep]`.  `in_degree` is a `defaultdict(int)` (0
everywhere initially) and `reverse_graph` a `defaultdict(list)`. -/
def edgeStep (all : List String) (pkg : String)
    (st : (String → Int) × (String → List String)) (dep : String) :
    (String → Int) × (String → List String) :=
  if dep ∈ all then
    (fun x => if x = pkg then st.1 x + 1 else st.1 x,
     fun x => if x = dep then st.2 x ++ [pkg] else st.2 x)
  else st

def entryFold (all : List String)
    (st : (String → Int) × (String → List String)) (p : String × List String) :
    (String → Int) × (String → List String) :=
  p.2.foldl (edgeStep all p.1) st

def buildDegRev (all : List String) (graph : List (String × List String)) :
    (String → Int) × (String → List String) :=
  graph.foldl (entryFold all)
    (fun _ => (0 : Int), fun _ => ([] : List String))

/-- `WheelBuilder.topological_sort`.  `all` is the set
`{pkg['name'].lower() for pkg in packages.values()}` in its iteration order;
`graph` is the dependency dict in its iteration order.  After Kahn's loop,
if some packages remain (cycle or unresolvable set), they are appended in
sorted order (Python's `sorted(all_packages - set(result))`). -/
def topoFinish (all result : List String) : List String :=
  if result.length = all.length then result
  else result ++ (all.filter (fun p => decide (p ∉ result))).insertionSort StrLe

def topological_sort (all : List String) (graph : List (String × List String)) :
    List String :=
  let dr := buildDegRev all graph
  let queue := all.filter (fun p => decide (dr.1 p = 0))
  topoFinish all (topoLoop dr.2 (all.length + graph.length) queue dr.1 [])

/-! ### `WheelBuilder.build_dependency_graph`

`packages` is a dict keyed by normalized lowercase name; each value's
`'name'` field is what the graph construction reads.  We model the dict by
the list of those `'name'` fields in iteration order.  The Python code does
`deps = PYTHON_TRANSITIVE_DEPS.get(pkg_name, []); deps.extend(
PYTHON_TRANSITIVE_DEPS.get(pkg_info['name'], []))`; the `extend` mutates the
global table's list in place, but since the per-package keys looked up are
pairwise distinct, the only observable effect is that the two lookups are
concatenated (doubling the list when both keys coincide), which is what we
write below. -/

/-- `WheelBuilder.normalize_package_name`. -/
def normalize_package_name (name : String) : String :=
  let n := replaceStr (toLowerStr name) "_" "-"
  lookupD NAME_NORMALIZATIONS n n

/-- `WheelBuilder.build_dependency_graph`, producing the graph dict as an
association list in insertion order.  Keys with no surviving dependency edges
are absent (the `defaultdict` is only touched when an edge is appended). -/
def build_dependency_graph (names : List String) : List (String × List String) :=
  (names.map (fun name =>
      (toLowerStr name,
        (((lookupD PYTHON_TRANSITIVE_DEPS (toLowerStr name) [] ++
              lookupD PYTHON_TRANSITIVE_DEPS name []).map
            (fun d => toLowerStr (normalize_package_name d))).filter
          (fun d => decide (d ∈ names.map toLowerStr)))))).filter
    (fun p => !p.2.isEmpty)

/-! ### Order properties of the comparators -/

theorem char_eq_of_toNat_eq {a b : Char} (h : a.toNat = b.toNat) : a = b := by
  rw [← Char.ofNat_toNat a, ← Char.ofNat_toNat b, h]

theorem listLe_total : ∀ a b : List Char, listLe a b = true ∨ listLe b a = true
  | [], _ => Or.inl rfl
  | _ :: _, [] => Or.inr rfl
  | a :: as, b :: bs => by
    rcases Nat.lt_trichotomy a.toNat b.toNat with h | h | h
    · left; simp [listLe, h]
    · have : ¬ a.toNat < b.toNat := by omega
      have h' : ¬ b.toNat < a.toNat := by omega
      rcases listLe_total as bs with ih | ih
      · left; simp [listLe, this, h', ih]
      · right; simp [listLe, this, h', ih]
    · right; simp [listLe, h]

theorem listLe_cons_elim {a b : Char} {as bs : List Char}
    (h : listLe (a :: as) (b :: bs) = true) :
    a.toNat < b.toNat ∨ (a.toNat = b.toNat ∧ listLe as bs = true) := by
  simp only [listLe] at h
  by_cases h₁ : a.toNat < b.toNat
  · exact Or.inl h₁
  · by_cases h₂ : b.toNat < a.toNat
    · simp [h₁, h₂] at h
    · exact Or.inr ⟨by omega, by simpa [h₁, h₂] using h⟩

theorem listLe_trans :
    ∀ a b c : List Char, listLe a b = true → listLe b c = true → listLe a c = true
  | [], _, _, _, _ => rfl
  | _ :: _, [], _, h, _ => by simp [listLe] at h
  | _ :: _, _ :: _, [], _, h => by simp [listLe] at h
  | a :: as, b :: bs, c :: cs, h₁, h₂ => by
    simp only [listLe]
    rcases listLe_cons_elim h₁ with hab | ⟨hab, h₁'⟩ <;>
      rcases listLe_cons_elim h₂ with hbc | ⟨hbc, h₂'⟩
    · simp [show a.toNat < c.toNat by omega]
    · simp [show a.toNat < c.toNat by omega]
    · simp [show a.toNat < c.toNat by omega]
    · have hac : ¬ a.toNat < c.toNat := by omega
      have hca : ¬ c.toNat < a.toNat := by omega
      simp only [hac, hca, if_false]
      exact listLe_trans as bs cs h₁' h₂'

theorem listLe_antisymm :
    ∀ a b : List Char, listLe a b = true → listLe b a = true → a = b
  | [], [], _, _ => rfl
  | _ :: _, [], h, _ => by simp [listLe] at h
  | [], _ :: _, _, h => by simp [listLe] at h
  | a :: as, b :: bs, h₁, h₂ => by
    rcases listLe_cons_elim h₁ with hab | ⟨hab, h₁'⟩ <;>
      rcases listLe_cons_elim h₂ with hba | ⟨hba, h₂'⟩ <;>
      try omega
    have : a = b := char_eq_of_toNat_eq (by omega)
    rw [this, listLe_antisymm as bs h₁' h₂']

theorem strLe_total (x y : String) : strLe x y = true ∨ strLe y x = true :=
  listLe_total x.data y.data

theorem strLe_trans {x y z : String} (h₁ : strLe x y = true) (h₂ : strLe y z = true) :
    strLe x z = true :=
  listLe_trans x.data y.data z.data h₁ h₂

theorem strLe_antisymm {x y : String} (h₁ : strLe x y = true) (h₂ : strLe y x = true) :
    x = y :=
  String.ext (listLe_antisymm x.data y.data h₁ h₂)

instance : IsTotal String KeyLe where
  total x y := by
    unfold KeyLe keyLe
    rcases Nat.lt_trichotomy (toolRank x) (toolRank y) with h | h | h
    · left; simp [h]
    · rcases strLe_total x y with h' | h' <;> [left; right] <;> simp [h, h']
    · right; simp [h]

instance : IsTrans String KeyLe where
  trans x y z h₁ h₂ := by
    unfold KeyLe keyLe at h₁ h₂ ⊢
    simp only [Bool.or_eq_true, Bool.and_eq_true, decide_eq_true_eq] at h₁ h₂ ⊢
    rcases h₁ with h₁ | ⟨h₁, h₁'⟩ <;> rcases h₂ with h₂ | ⟨h₂, h₂'⟩
    · exact Or.inl (by omega)
    · exact Or.inl (by omega)
    · exact Or.inl (by omega)
    · exact Or.inr ⟨by omega, strLe_trans h₁' h₂'⟩

instance : IsAntisymm String KeyLe where
  antisymm x y h₁ h₂ := by
    unfold KeyLe keyLe at h₁ h₂
    simp only [Bool.or_eq_true, Bool.and_eq_true, decide_eq_true_eq] at h₁ h₂
    rcases h₁ with h₁ | ⟨h₁, h₁'⟩ <;> rcases h₂ with h₂ | ⟨h₂, h₂'⟩
    · omega
    · omega
    · omega
    · exact strLe_antisymm h₁' h₂'

instance : IsTotal String StrLe where
  total x y := strLe_total x y

instance : IsTrans String StrLe where
  trans _ _ _ h₁ h₂ := strLe_trans h₁ h₂

instance : IsAntisymm String StrLe where
  antisymm _ _ h₁ h₂ := strLe_antisymm h₁ h₂

/-- Sorting by the build-tool key is invariant under permutation of the input:
the key is injective, so the sorted list is unique. -/
theorem sortQueue_eq_of_perm {q₁ q₂ : List String} (h : q₁.Perm q₂) :
    sortQueue q₁ = sortQueue q₂ :=
  List.eq_of_perm_of_sorted
    (((List.perm_insertionSort KeyLe q₁).trans h).trans
      (List.perm_insertionSort KeyLe q₂).symm)
    (List.sorted_insertionSort KeyLe q₁) (List.sorted_insertionSort KeyLe q₂)

/-- Plain lexicographic sorting is likewise invariant under permutation. -/
theorem sortStr_eq_of_perm {l₁ l₂ : List String} (h : l₁.Perm l₂) :
    l₁.insertionSort StrLe = l₂.insertionSort StrLe :=
  List.eq_of_perm_of_sorted
    (((List.perm_insertionSort StrLe l₁).trans h).trans
      (List.perm_insertionSort StrLe l₂).symm)
    (List.sorted_insertionSort StrLe l₁) (List.sorted_insertionSort StrLe l₂)

/-! ### Unfolding lemmas for the loop bodies -/

theorem procDep_nil (deg : String → Int) (q : List String) :
    procDep [] deg q = (deg, q) := rfl

theorem procDep_cons (d : String) (ds : List String) (deg : String → Int)
    (q : List String) :
    procDep (d :: ds) deg q =
      procDep ds (fun x => if x = d then deg x - 1 else deg x)
        (if deg d - 1 = 0 then q ++ [d] else q) := by
  show List.foldl _ _ _ = _
  rw [List.foldl_cons]
  by_cases h : deg d - 1 = 0 <;> simp [h, procDep]

/-- Processing the same dependent list from permuted queues gives the same
in-degree function and permuted queues. -/
theorem procDep_state_congr :
    ∀ (ds : List String) (deg : String → Int) {q₁ q₂ : List String},
      q₁.Perm q₂ →
      (procDep ds deg q₁).1 = (procDep ds deg q₂).1 ∧
        (procDep ds deg q₁).2.Perm (procDep ds deg q₂).2
  | [], _, _, _, hq => ⟨rfl, hq⟩
  | d :: ds, deg, q₁, q₂, hq => by
    rw [procDep_cons, procDep_cons]
    apply procDep_state_congr
    by_cases h : deg d - 1 = 0 <;> simp [h]
    · exact hq.append_right _
    · exact hq

/-- Processing permuted dependent lists from permuted queues gives the same
in-degree function and permuted queues: the queue appends commute because a
node's in-degree passes through zero at most once. -/
theorem procDep_congr :
    ∀ {ds₁ ds₂ : List String}, ds₁.Perm ds₂ →
      ∀ (deg : String → Int) {q₁ q₂ : List String}, q₁.Perm q₂ →
      (procDep ds₁ deg q₁).1 = (procDep ds₂ deg q₂).1 ∧
        (procDep ds₁ deg q₁).2.Perm (procDep ds₂ deg q₂).2 := by
  intro ds₁ ds₂ hp
  induction hp with
  | nil =>
    intro deg q₁ q₂ hq
    exact ⟨rfl, hq⟩
  | cons d _ ih =>
    intro deg q₁ q₂ hq
    rw [procDep_cons, procDep_cons]
    apply ih
    by_cases h : deg d - 1 = 0 <;> simp [h]
    · exact hq.append_right _
    · exact hq
  | swap x y l =>
    intro deg q₁ q₂ hq
    rw [procDep_cons, procDep_cons, procDep_cons, procDep_cons]
    have hdeg :
        (fun z => if z = x then (if z = y then deg z - 1 else deg z) - 1
          else if z = y then deg z - 1 else deg z) =
        (fun z => if z = y then (if z = x then deg z - 1 else deg z) - 1
          else if z = x then deg z - 1 else deg z) := by
      funext z
      rcases eq_or_ne x y with rfl | hxy
      · simp
      · by_cases hx : z = x
        · by_cases hy : z = y
          · exact absurd (hx.symm.trans hy) hxy
          · simp [hx, hy, hxy, Ne.symm hxy]
        · by_cases hy : z = y
          · simp [hx, hy, hxy, Ne.symm hxy]
          · simp [hx, hy]
    rw [hdeg]
    apply procDep_state_congr
    rcases eq_or_ne x y with rfl | hxy
    · by_cases c₁ : deg x - 1 = 0 <;> by_cases c₂ : (deg x - 1) - 1 = 0 <;>
        simp [c₁, c₂] <;>
        first
          | exact hq
          | exact hq.append_right _
    · have hyx : ¬ y = x := Ne.symm hxy
      simp only [hxy, hyx, if_false]
      by_cases cx : deg x - 1 = 0 <;> by_cases cy : deg y - 1 = 0 <;>
        simp [cx, cy]
      · exact hq.append (List.Perm.swap x y [])
      · exact hq.append_right _
      · exact hq.append_right _
      · exact hq
  | trans _ _ ih₁ ih₂ =>
    intro deg q₁ q₂ hq
    obtain ⟨e₁, p₁⟩ := ih₁ deg hq
    obtain ⟨e₂, p₂⟩ := ih₂ deg (List.Perm.refl q₂)
    exact ⟨e₁.trans e₂, p₁.trans p₂⟩

/-- The whole Kahn loop is insensitive to the queue's internal order and to
the internal order of each reverse-adjacency list: the queue is re-sorted by
an injective key at the top of every iteration. -/
theorem topoLoop_succ (rev : String → List String) (fuel : Nat)
    (q : List String) (deg : String → Int) (res : List String) :
    topoLoop rev (fuel + 1) q deg res =
      match sortQueue q with
      | [] => res
      | pkg :: rest =>
        topoLoop rev fuel (procDep (rev pkg) deg rest).2
          (procDep (rev pkg) deg rest).1 (res ++ [pkg]) := rfl

theorem topoLoop_congr :
    ∀ (fuel : Nat) {rev₁ rev₂ : String → List String}
      (_ : ∀ x, (rev₁ x).Perm (rev₂ x)) {q₁ q₂ : List String} (_ : q₁.Perm q₂)
      (deg : String → Int) (res : List String),
      topoLoop rev₁ fuel q₁ deg res = topoLoop rev₂ fuel q₂ deg res
  | 0, _, _, _, _, _, _, _, _ => rfl
  | fuel + 1, rev₁, rev₂, hrev, q₁, q₂, hq, deg, res => by
    rw [topoLoop_succ, topoLoop_succ, sortQueue_eq_of_perm hq]
    cases hsq : sortQueue q₂ with
    | nil => rfl
    | cons pkg rest =>
      dsimp only
      obtain ⟨e, p⟩ := procDep_congr (hrev pkg) deg (List.Perm.refl rest)
      rw [e]
      exact topoLoop_congr fuel hrev p _ _

/-! ### Characterisation of `buildDegRev` -/

/-- Contribution of one graph entry to `in_degree x`. -/
def degContrib (all : List String) (p : String × List String) (x : String) : Int :=
  if x = p.1 then ((p.2.filter (fun d => decide (d ∈ all))).length : Int) else 0

/-- Contribution of one graph entry to `reverse_graph[x]`. -/
def revContrib (all : List String) (p : String × List String) (x : String) :
    List String :=
  (p.2.filter (fun d => decide (d ∈ all) && decide (d = x))).map (fun _ => p.1)

theorem edgeFold_deg (all : List String) :
    ∀ (deps : List String) (pkg : String)
      (st : (String → Int) × (String → List String)) (z : String),
      (deps.foldl (edgeStep all pkg) st).1 z =
        st.1 z + degContrib all (pkg, deps) z
  | [], pkg, st, z => by simp [degContrib]
  | d :: ds, pkg, st, z => by
    rw [List.foldl_cons]
    rw [edgeFold_deg all ds pkg _ z]
    simp only [degContrib, List.filter_cons]
    by_cases hd : d ∈ all
    · by_cases hz : z = pkg
      · subst hz
        simp [edgeStep, hd]
        omega
      · simp [edgeStep, hd, hz]
    · by_cases hz : z = pkg
      · subst hz
        simp [edgeStep, hd]
      · simp [edgeStep, hd, hz]

theorem edgeFold_rev (all : List String) :
    ∀ (deps : List String) (pkg : String)
      (st : (String → Int) × (String → List String)) (z : String),
      (deps.foldl (edgeStep all pkg) st).2 z =
        st.2 z ++ revContrib all (pkg, deps) z
  | [], pkg, st, z => by simp [revContrib]
  | d :: ds, pkg, st, z => by
    rw [List.foldl_cons]
    rw [edgeFold_rev all ds pkg _ z]
    simp only [revContrib, List.filter_cons]
    by_cases hd : d ∈ all
    · by_cases hz : d = z
      · subst hz
        simp [edgeStep, hd, List.append_assoc]
      · simp [edgeStep, hd, hz, Ne.symm hz]
    · simp [edgeStep, hd]

theorem buildDegRev_deg (all : List String) :
    ∀ (graph : List (String × List String)) (z : String),
      (buildDegRev all graph).1 z =
        (graph.map (fun p => degContrib all p z)).sum := by
  have main :
      ∀ (graph : List (String × List String))
        (st : (String → Int) × (String → List String)) (z : String),
        (graph.foldl (entryFold all) st).1 z =
          st.1 z + (graph.map (fun p => degContrib all p z)).sum := by
    intro graph
    induction graph with
    | nil => intro st z; simp
    | cons p g ih =>
      intro st z
      rw [List.foldl_cons, ih]
      show (entryFold all st p).1 z + _ = _
      rw [entryFold, edgeFold_deg all p.2 p.1 st z]
      simp
      omega
  intro graph z
  rw [show buildDegRev all graph = List.foldl (entryFold all) _ graph from rfl,
    main]
  simp

theorem buildDegRev_rev (all : List String) :
    ∀ (graph : List (String × List String)) (z : String),
      (buildDegRev all graph).2 z =
        (graph.map (fun p => revContrib all p z)).flatten := by
  have main :
      ∀ (graph : List (String × List String))
        (st : (String → Int) × (String → List String)) (z : String),
        (graph.foldl (entryFold all) st).2 z =
          st.2 z ++ (graph.map (fun p => revContrib all p z)).flatten := by
    intro graph
    induction graph with
    | nil => intro st z; simp
    | cons p g ih =>
      intro st z
      rw [List.foldl_cons, ih]
      show (entryFold all st p).2 z ++ _ = _
      rw [entryFold, edgeFold_rev all p.2 p.1 st z]
      simp
  intro graph z
  rw [show buildDegRev all graph = List.foldl (entryFold all) _ graph from rfl,
    main]
  simp

theorem buildDegRev_deg_perm (all : List String)
    {g₁ g₂ : List (String × List String)} (h : g₁.Perm g₂) :
    (buildDegRev all g₁).1 = (buildDegRev all g₂).1 := by
  funext z
  rw [buildDegRev_deg, buildDegRev_deg]
  exact (h.map (fun p => degContrib all p z)).sum_eq

theorem buildDegRev_rev_perm (all : List String)
    {g₁ g₂ : List (String × List String)} (h : g₁.Perm g₂) (z : String) :
    ((buildDegRev all g₁).2 z).Perm ((buildDegRev all g₂).2 z) := by
  rw [buildDegRev_rev, buildDegRev_rev]
  exact (h.map (fun p => revContrib all p z)).flatten

/-- Every entry of a reverse-adjacency list is the key of some graph entry. -/
theorem buildDegRev_rev_mem (all : List String)
    (graph : List (String × List String)) (z y : String)
    (hy : y ∈ (buildDegRev all graph).2 z) : ∃ p ∈ graph, y = p.1 := by
  rw [buildDegRev_rev] at hy
  obtain ⟨l, hl, hyl⟩ := List.mem_flatten.mp hy
  obtain ⟨p, hp, rfl⟩ := List.mem_map.mp hl
  obtain ⟨_, _, rfl⟩ := List.mem_map.mp hyl
  exact ⟨p, hp, rfl⟩

/-! ### Permutation invariance of the whole resolver -/

theorem topological_sort_eq (all : List String)
    (graph : List (String × List String)) :
    topological_sort all graph =
      topoFinish all
        (topoLoop (buildDegRev all graph).2 (all.length + graph.length)
          (all.filter (fun p => decide ((buildDegRev all graph).1 p = 0)))
          (buildDegRev all graph).1 []) := rfl

theorem edgeStep_congr {all₁ all₂ : List String}
    (h : ∀ d : String, d ∈ all₁ ↔ d ∈ all₂) : edgeStep all₁ = edgeStep all₂ := by
  funext pkg st dep
  unfold edgeStep
  exact if_congr (h dep) rfl rfl

theorem buildDegRev_all_congr {all₁ all₂ : List String}
    (h : ∀ d : String, d ∈ all₁ ↔ d ∈ all₂)
    (graph : List (String × List String)) :
    buildDegRev all₁ graph = buildDegRev all₂ graph := by
  unfold buildDegRev entryFold
  rw [edgeStep_congr h]

theorem topoFinish_congr {all₁ all₂ : List String} (ha : all₁.Perm all₂)
    (res : List String) : topoFinish all₁ res = topoFinish all₂ res := by
  unfold topoFinish
  rw [ha.length_eq, sortStr_eq_of_perm (ha.filter _)]

/-- The Build-Order Resolver is a function of the package *set* and the edge
*multiset*: permuting the set/dict iteration orders does not change its
output. -/
theorem topological_sort_congr {all₁ all₂ : List String}
    {g₁ g₂ : List (String × List String)} (ha : all₁.Perm all₂)
    (hg : g₁.Perm g₂) :
    topological_sort all₁ g₁ = topological_sort all₂ g₂ := by
  have hmem : ∀ d : String, d ∈ all₁ ↔ d ∈ all₂ := fun d => ha.mem_iff
  have hba : buildDegRev all₁ g₁ = buildDegRev all₂ g₁ :=
    buildDegRev_all_congr hmem g₁
  have hdeg : (buildDegRev all₁ g₁).1 = (buildDegRev all₂ g₂).1 := by
    rw [hba]
    exact buildDegRev_deg_perm all₂ hg
  have hrev : ∀ x, ((buildDegRev all₁ g₁).2 x).Perm ((buildDegRev all₂ g₂).2 x) := by
    intro x
    rw [hba]
    exact buildDegRev_rev_perm all₂ hg x
  have hfuel : all₁.length + g₁.length = all₂.length + g₂.length := by
    rw [ha.length_eq, hg.length_eq]
  rw [topological_sort_eq, topological_sort_eq, hdeg, hfuel]
  rw [topoLoop_congr (all₂.length + g₂.length) hrev
    (ha.filter (fun p => decide ((buildDegRev all₂ g₂).1 p = 0)))
    (buildDegRev all₂ g₂).1 []]
  exact topoFinish_congr ha _

/-! ### The loop result lists each package at most once

The key observation: a node is appended to the ready queue only when its
in-degree becomes exactly 0, in-degrees only ever decrease, and every node
already in the queue or the result entered it with in-degree 0 — so its
current in-degree is ≤ 0 and a further decrement can never hit 0 again. -/

theorem procDep_deg_le :
    ∀ (ds : List String) (deg : String → Int) (q : List String) (z : String),
      (procDep ds deg q).1 z ≤ deg z
  | [], _, _, _ => le_refl _
  | d :: ds, deg, q, z => by
    rw [procDep_cons]
    refine le_trans (procDep_deg_le ds _ _ z) ?_
    by_cases hz : z = d <;> simp [hz]

theorem procDep_invariant (P : String → Prop) :
    ∀ (ds : List String) (deg : String → Int) (q res : List String),
      (q ++ res).Nodup →
      (∀ x ∈ q ++ res, deg x ≤ 0) →
      (∀ x ∈ q, P x) → (∀ d ∈ ds, P d) →
      ((procDep ds deg q).2 ++ res).Nodup ∧
        (∀ x ∈ (procDep ds deg q).2 ++ res, (procDep ds deg q).1 x ≤ 0) ∧
        (∀ x ∈ (procDep ds deg q).2, P x)
  | [], deg, q, res, hnd, hdeg, hP, _ => ⟨hnd, hdeg, hP⟩
  | d :: ds, deg, q, res, hnd, hdeg, hP, hds => by
    rw [procDep_cons]
    by_cases hc : deg d - 1 = 0
    · have hdnotin : d ∉ q ++ res := fun hmem => absurd (hdeg d hmem) (by omega)
      simp only [hc, if_true]
      refine procDep_invariant P ds _ _ res ?_ ?_ ?_
        (fun e he => hds e (List.mem_cons_of_mem d he))
      · have hp : ((q ++ [d]) ++ res).Perm (d :: (q ++ res)) :=
          (List.perm_append_singleton d q).append_right res
        exact hp.symm.nodup (List.nodup_cons.mpr ⟨hdnotin, hnd⟩)
      · intro x hx
        by_cases hxd : x = d
        · subst hxd
          rw [if_pos rfl]
          omega
        · simp only [hxd, if_false]
          have hx' : x ∈ q ++ res := by
            rcases List.mem_append.mp hx with hx | hx
            · rcases List.mem_append.mp hx with hx | hx
              · exact List.mem_append.mpr (Or.inl hx)
              · exact absurd (List.mem_singleton.mp hx) hxd
            · exact List.mem_append.mpr (Or.inr hx)
          exact hdeg x hx'
      · intro x hx
        rcases List.mem_append.mp hx with hx | hx
        · exact hP x hx
        · rcases List.mem_singleton.mp hx with rfl
          exact hds x (List.mem_cons_self _ _)
    · simp only [hc, if_false]
      refine procDep_invariant P ds _ _ res hnd ?_ hP
        (fun e he => hds e (List.mem_cons_of_mem d he))
      intro x hx
      by_cases hxd : x = d
      · subst hxd
        rw [if_pos rfl]
        have := hdeg x hx
        omega
      · simp only [hxd, if_false]
        exact hdeg x hx

theorem topoLoop_invariant (P : String → Prop) :
    ∀ (fuel : Nat) (rev : String → List String) (q : List String)
      (deg : String → Int) (res : List String),
      (q ++ res).Nodup →
      (∀ x ∈ q ++ res, deg x ≤ 0) →
      (∀ x ∈ q, P x) → (∀ x ∈ res, P x) →
      (∀ z y, y ∈ rev z → P y) →
      (topoLoop rev fuel q deg res).Nodup ∧
        ∀ x ∈ topoLoop rev fuel q deg res, P x
  | 0, _, _, _, res, hnd, _, _, hPr, _ => ⟨hnd.of_append_right, hPr⟩
  | fuel + 1, rev, q, deg, res, hnd, hdeg, hPq, hPr, hrev => by
    rw [topoLoop_succ]
    cases hsq : sortQueue q with
    | nil => exact ⟨hnd.of_append_right, hPr⟩
    | cons pkg rest =>
      have hperm : (pkg :: rest).Perm q := hsq ▸ List.perm_insertionSort KeyLe q
      have hq' : ∀ x ∈ pkg :: rest, x ∈ q := fun x hx => hperm.subset hx
      have hpkg : pkg ∈ q := hq' pkg (List.mem_cons_self _ _)
      have hmemq : ∀ x ∈ rest ++ (res ++ [pkg]), x ∈ q ++ res := by
        intro x hx
        rcases List.mem_append.mp hx with hx | hx
        · exact List.mem_append.mpr
            (Or.inl (hq' x (List.mem_cons_of_mem pkg hx)))
        · rcases List.mem_append.mp hx with hx | hx
          · exact List.mem_append.mpr (Or.inr hx)
          · rcases List.mem_singleton.mp hx with rfl
            exact List.mem_append.mpr (Or.inl hpkg)
      have hnd' : (rest ++ (res ++ [pkg])).Nodup := by
        have a₁ : (q ++ res).Perm (pkg :: (rest ++ res)) :=
          (hperm.append_right res).symm
        have a₂ : (pkg :: (rest ++ res)).Perm (rest ++ (res ++ [pkg])) := by
          rw [← List.append_assoc]
          exact (List.perm_append_singleton pkg _).symm
        exact (a₁.trans a₂).nodup hnd
      obtain ⟨ind, ideg, iP⟩ := procDep_invariant P (rev pkg) deg rest (res ++ [pkg])
        hnd' (fun x hx => hdeg x (hmemq x hx))
        (fun x hx => hPq x (hq' x (List.mem_cons_of_mem pkg hx)))
        (fun d hd => hrev pkg d hd)
      exact topoLoop_invariant P fuel rev _ _ _ ind ideg iP
        (fun x hx => by
          rcases List.mem_append.mp hx with hx | hx
          · exact hPr x hx
          · rcases List.mem_singleton.mp hx with rfl
            exact hPq _ hpkg)
        hrev

/-! ### The output of the resolver is a permutation of the package set -/

theorem topoFinish_perm {all result : List String} (hall : all.Nodup)
    (hres : result.Nodup) (hsub : ∀ x ∈ result, x ∈ all) :
    (topoFinish all result).Perm all := by
  unfold topoFinish
  by_cases h : result.length = all.length
  · rw [if_pos h]
    exact (hres.subperm (fun x hx => hsub x hx)).perm_of_length_le
      (le_of_eq h.symm)
  · rw [if_neg h]
    have hs : ((all.filter (fun p => decide (p ∉ result))).insertionSort
        StrLe).Perm (all.filter (fun p => decide (p ∉ result))) :=
      List.perm_insertionSort _ _
    refine (List.Perm.append_left result hs).trans ?_
    rw [List.perm_iff_count]
    intro a
    rw [List.count_append]
    by_cases ha : a ∈ result
    · have h₁ : List.count a result = 1 := List.count_eq_one_of_mem hres ha
      have h₂ : a ∉ all.filter (fun p => decide (p ∉ result)) := by
        intro hmem
        have := (List.mem_filter.mp hmem).2
        simp only [decide_eq_true_eq] at this
        exact this ha
      have h₃ : List.count a all = 1 :=
        List.count_eq_one_of_mem hall (hsub a ha)
      rw [h₁, List.count_eq_zero_of_not_mem h₂, h₃]
    · have h₁ : List.count a result = 0 := List.count_eq_zero_of_not_mem ha
      have h₂ : List.count a (all.filter (fun p => decide (p ∉ result))) =
          List.count a all := List.count_filter (by simpa using ha)
      rw [h₁, h₂, Nat.zero_add]

/-- On a duplicate-free package set and any graph whose keys are packages of
that set, the resolver's output lists every package exactly once. -/
theorem topological_sort_perm {all : List String}
    {graph : List (String × List String)} (hall : all.Nodup)
    (hkeys : ∀ p ∈ graph, p.1 ∈ all) :
    (topological_sort all graph).Perm all := by
  rw [topological_sort_eq]
  have hrevP : ∀ z y, y ∈ (buildDegRev all graph).2 z → y ∈ all := by
    intro z y hy
    obtain ⟨p, hp, rfl⟩ := buildDegRev_rev_mem all graph z y hy
    exact hkeys p hp
  obtain ⟨hnd, hsub⟩ := topoLoop_invariant (fun x => x ∈ all)
    (all.length + graph.length) (buildDegRev all graph).2
    (all.filter (fun p => decide ((buildDegRev all graph).1 p = 0)))
    (buildDegRev all graph).1 []
    (by rw [List.append_nil]; exact hall.filter _)
    (by
      intro x hx
      rw [List.append_nil] at hx
      have := (List.mem_filter.mp hx).2
      simp only [decide_eq_true_eq] at this
      omega)
    (fun x hx => (List.mem_filter.mp hx).1)
    (fun x hx => absurd hx (List.not_mem_nil x))
    hrevP
  exact topoFinish_perm hall hnd hsub

/-! ### Permutation invariance of `build_dependency_graph` -/

theorem build_dependency_graph_perm {n₁ n₂ : List String} (h : n₁.Perm n₂) :
    (build_dependency_graph n₁).Perm (build_dependency_graph n₂) := by
  unfold build_dependency_graph
  have hpred : (fun d => decide (d ∈ n₁.map toLowerStr)) =
      (fun d => decide (d ∈ n₂.map toLowerStr)) := by
    funext d
    exact decide_eq_decide.mpr (h.map toLowerStr).mem_iff
  rw [hpred]
  exact (h.map _).filter _


/-! ### Edge-consistency of the Kahn-resolved prefix

`depsOf all graph x` collects, with multiplicity, the in-set dependencies of
`x` recorded in `graph` — exactly the edges `topological_sort` counts into
`in_degree[x]` and decrements one by one.  `loopResult` is the output of
Kahn's loop alone, before `topoFinish` appends the sorted remainder.
`edgeConsistent` says a list places every entry after all of its in-set
dependencies. -/

def depsOf (all : List String) (graph : List (String × List String))
    (x : String) : List String :=
  (graph.map (fun p =>
    if x = p.1 then p.2.filter (fun d => decide (d ∈ all)) else [])).flatten

def loopResult (all : List String) (graph : List (String × List String)) :
    List String :=
  topoLoop (buildDegRev all graph).2 (all.length + graph.length)
    (all.filter (fun p => decide ((buildDegRev all graph).1 p = 0)))
    (buildDegRev all graph).1 []

def edgeConsistent (all : List String) (graph : List (String × List String))
    (L : List String) : Prop :=
  ∀ i : Nat, ∀ hi : i < L.length, ∀ d ∈ depsOf all graph (L.get ⟨i, hi⟩),
    d ∈ L.take i

theorem topological_sort_loopResult (all : List String)
    (graph : List (String × List String)) :
    topological_sort all graph = topoFinish all (loopResult all graph) := rfl

/-- The initial in-degree of `x` is the number of its in-set dependencies. -/
theorem deg_eq_depsOf (all : List String)
    (graph : List (String × List String)) (x : String) :
    (buildDegRev all graph).1 x = ((depsOf all graph x).length : Int) := by
  rw [buildDegRev_deg, depsOf, List.length_flatten, List.map_map]
  induction graph with
  | nil => rfl
  | cons p g ih =>
    simp only [List.map_cons, List.sum_cons, Nat.cast_add]
    rw [ih]
    congr 1
    show degContrib all p x =
      ((if x = p.1 then p.2.filter (fun d => decide (d ∈ all)) else []).length : Int)
    unfold degContrib
    by_cases h : x = p.1
    · rw [if_pos h, if_pos h]
    · rw [if_neg h, if_neg h]
      rfl

/-- Occurrences of `x` in `reverse_graph[d]` are occurrences of `d` among the
dependencies of `x`: decrementing along `reverse_graph[pkg]` removes exactly
the edges into `pkg`. -/
theorem count_rev_eq (all : List String)
    (graph : List (String × List String)) (d x : String) :
    ((buildDegRev all graph).2 d).count x = (depsOf all graph x).count d := by
  rw [buildDegRev_rev, depsOf]
  induction graph with
  | nil => rfl
  | cons p g ih =>
    simp only [List.map_cons, List.flatten_cons, List.count_append]
    rw [ih]
    congr 1
    show (revContrib all p d).count x =
      (if x = p.1 then p.2.filter (fun e => decide (e ∈ all)) else []).count d
    unfold revContrib
    rw [List.map_const', List.count_replicate]
    by_cases h : x = p.1
    · rw [if_pos h]
      have hbeq : (p.1 == x) = true := beq_iff_eq.mpr h.symm
      rw [hbeq, if_pos rfl]
      rw [show ∀ l : List String, l.count d = l.countP (fun e => e == d) from
        fun l => rfl]
      rw [List.countP_filter, List.countP_eq_length_filter]
      congr 1
      apply List.filter_congr
      intro e _
      by_cases he : e = d <;> by_cases ha : e ∈ all <;> simp [he, ha]
    · rw [if_neg h]
      have hbeq : (p.1 == x) = false := by
        simp only [beq_eq_false_iff_ne, ne_eq]
        exact fun hc => h hc.symm
      rw [hbeq, if_neg (by simp)]
      rfl

/-- Processing a dependent list decrements each node's degree by its number
of occurrences in the list, whatever the queue. -/
theorem procDep_deg_count :
    ∀ (ds : List String) (deg : String → Int) (q : List String) (x : String),
      (procDep ds deg q).1 x = deg x - (ds.count x : Int)
  | [], deg, q, x => by simp [procDep]
  | d :: ds, deg, q, x => by
    rw [procDep_cons, procDep_deg_count ds]
    by_cases h : x = d
    · subst h
      rw [if_pos rfl, List.count_cons_self]
      push_cast
      ring
    · rw [if_neg h, List.count_cons_of_ne h]

/-- A node whose degree is 0 after processing is in the queue or the result:
it either had degree 0 before, or was appended the moment it reached 0. -/
theorem procDep_mem (all : List String) :
    ∀ (ds : List String) (deg : String → Int) (q res : List String),
      (∀ x ∈ all, deg x = 0 → x ∈ q ++ res) →
      ∀ x ∈ all, (procDep ds deg q).1 x = 0 →
        x ∈ (procDep ds deg q).2 ++ res
  | [], _, _, _, h, x, hx, hdx => h x hx hdx
  | d :: ds, deg, q, res, h, x, hx, hdx => by
    rw [procDep_cons] at hdx ⊢
    refine procDep_mem all ds _ _ res ?_ x hx hdx
    intro y hy hdy
    by_cases hyd : y = d
    · subst hyd
      rw [if_pos rfl] at hdy
      rw [if_pos hdy]
      exact List.mem_append.mpr (Or.inl (List.mem_append.mpr
        (Or.inr (List.mem_singleton.mpr rfl))))
    · rw [if_neg hyd] at hdy
      have hmem := h y hy hdy
      by_cases hc : deg d - 1 = 0
      · rw [if_pos hc]
        rcases List.mem_append.mp hmem with h1 | h1
        · exact List.mem_append.mpr (Or.inl (List.mem_append.mpr (Or.inl h1)))
        · exact List.mem_append.mpr (Or.inr h1)
      · rw [if_neg hc]
        exact hmem

/-- Splitting a `countP` at the occurrences of one element satisfying the
predicate. -/
theorem countP_split_eq (p : String → Bool) (a : String) (hpa : p a = true) :
    ∀ l : List String,
      l.countP p = l.countP (fun d => p d && !(d == a)) + l.count a
  | [] => rfl
  | d :: l => by
    rw [List.countP_cons, List.countP_cons, List.count_cons,
      countP_split_eq p a hpa l]
    by_cases h : d = a
    · subst h
      simp [hpa]
      omega
    · have hbeq : (d == a) = false := by
        simp only [beq_eq_false_iff_ne, ne_eq]
        exact h
      simp [hbeq]
      omega

theorem decide_notin_append (res : List String) (pkg : String) :
    (fun d => decide (d ∉ res ++ [pkg])) =
      (fun d => decide (d ∉ res) && !(d == pkg)) := by
  funext d
  by_cases h1 : d ∈ res
  · simp [h1]
  · by_cases h2 : d = pkg
    · simp [h1, h2]
    · simp [h1, h2]

theorem edgeConsistent_nil (all : List String)
    (graph : List (String × List String)) : edgeConsistent all graph [] := by
  intro i hi
  exact absurd hi (by simp)

/-- Appending a package all of whose in-set dependencies already appear
preserves edge-consistency. -/
theorem edgeConsistent_snoc {all : List String}
    {graph : List (String × List String)} {res : List String} {pkg : String}
    (h : edgeConsistent all graph res)
    (hdeps : ∀ d ∈ depsOf all graph pkg, d ∈ res) :
    edgeConsistent all graph (res ++ [pkg]) := by
  intro i hi d hd
  rcases Nat.lt_or_ge i res.length with hlt | hge
  · have hget : (res ++ [pkg]).get ⟨i, hi⟩ = res.get ⟨i, hlt⟩ := by
      simp only [List.get_eq_getElem]
      exact List.getElem_append_left hlt
    rw [hget] at hd
    rw [List.take_append_of_le_length (Nat.le_of_lt hlt)]
    exact h i hlt d hd
  · have hil : i = res.length := by
      have hlen : i < res.length + 1 := by
        simpa using hi
      omega
    subst hil
    have hget : (res ++ [pkg]).get ⟨res.length, hi⟩ = pkg := by
      simp only [List.get_eq_getElem]
      exact List.getElem_concat_length res pkg res.length rfl (by simp)
    rw [hget] at hd
    rw [List.take_append_of_le_length (le_refl _), List.take_length]
    exact hdeps d hd

/-- No member of a self-blocking set — one in which every member has an
in-set dependency inside the set — can occur in an edge-consistent list:
its earliest occurrence would need a dependency of the set even earlier. -/
theorem edgeConsistent_blocked {all : List String}
    {graph : List (String × List String)} {L : List String}
    (hL : edgeConsistent all graph L) (S : String → Prop)
    (hS : ∀ x, S x → ∃ d ∈ depsOf all graph x, S d) :
    ∀ x, S x → x ∉ L := by
  have main : ∀ i : Nat, ∀ hi : i < L.length, ¬ S (L.get ⟨i, hi⟩) := by
    intro i
    induction i using Nat.strong_induction_on with
    | _ i ih =>
      intro hi hSx
      obtain ⟨d, hd, hSd⟩ := hS _ hSx
      have hdt : d ∈ L.take i := hL i hi d hd
      obtain ⟨j, hj, hget⟩ := List.mem_iff_getElem.mp hdt
      have hji : j < i := by
        have hjlen := hj
        rw [List.length_take] at hjlen
        omega
      have hjL : j < L.length := lt_trans hji hi
      have hLj : L.get ⟨j, hjL⟩ = d := by
        simp only [List.get_eq_getElem]
        rw [← List.getElem_take L]
        · exact hget
      exact ih j hji hjL (hLj ▸ hSd)
  intro x hSx hxL
  obtain ⟨i, hi, hgi⟩ := List.mem_iff_getElem.mp hxL
  exact main i hi (by
    simp only [List.get_eq_getElem]
    rw [hgi]
    exact hSx)

/-- Invariant proof for Kahn's loop: the emitted prefix stays
edge-consistent, and — once the fuel is adequate — every package left out has
an in-set dependency that is also left out.  State invariants: the queue and
result are disjoint and duplicate-free subsets of `all`; queued and emitted
nodes have non-positive degree; each node's degree counts its in-set
dependencies not yet emitted; nodes of degree 0 are queued or emitted. -/
theorem topoLoop_main (all : List String)
    (graph : List (String × List String))
    (hrev : ∀ z y, y ∈ (buildDegRev all graph).2 z → y ∈ all) :
    ∀ (fuel : Nat) (q : List String) (deg : String → Int) (res : List String),
      (q ++ res).Nodup →
      (∀ x ∈ q ++ res, deg x ≤ 0) →
      (∀ x ∈ q ++ res, x ∈ all) →
      (∀ x, deg x =
        ((depsOf all graph x).countP (fun d => decide (d ∉ res)) : Int)) →
      (∀ x ∈ all, deg x = 0 → x ∈ q ++ res) →
      edgeConsistent all graph res →
      edgeConsistent all graph
          (topoLoop (buildDegRev all graph).2 fuel q deg res) ∧
        (all.length ≤ fuel + res.length →
          ∀ x ∈ all, x ∉ topoLoop (buildDegRev all graph).2 fuel q deg res →
            ∃ d ∈ depsOf all graph x,
              d ∉ topoLoop (buildDegRev all graph).2 fuel q deg res)
  | 0, q, deg, res, hnd, _, hsub, _, _, hcons => by
    refine ⟨hcons, fun hfuel x hx hnx => absurd ?_ hnx⟩
    have hres : res.Nodup := hnd.of_append_right
    have hresall : ∀ y ∈ res, y ∈ all := fun y hy =>
      hsub y (List.mem_append.mpr (Or.inr hy))
    have hperm : res.Perm all :=
      (hres.subperm hresall).perm_of_length_le (by simpa using hfuel)
    exact hperm.symm.subset hx
  | fuel + 1, q, deg, res, hnd, hdeg, hsub, hcount, hmem0, hcons => by
    rw [topoLoop_succ]
    cases hsq : sortQueue q with
    | nil =>
      have hqnil : q = [] := by
        have hp : (sortQueue q).Perm q := List.perm_insertionSort KeyLe q
        rw [hsq] at hp
        exact hp.symm.eq_nil
      subst hqnil
      refine ⟨hcons, fun _ x hx hnx => ?_⟩
      have hdx : deg x ≠ 0 := fun hz =>
        hnx (by simpa using hmem0 x hx hz)
      have hcpos :
          0 < (depsOf all graph x).countP (fun d => decide (d ∉ res)) := by
        have := hcount x
        omega
      obtain ⟨d, hd, hdres⟩ := List.countP_pos_iff.mp hcpos
      exact ⟨d, hd, by simpa using hdres⟩
    | cons pkg rest =>
      dsimp only
      have hperm : (pkg :: rest).Perm q := hsq ▸ List.perm_insertionSort KeyLe q
      have hq1 : ∀ x ∈ pkg :: rest, x ∈ q := fun x hx => hperm.subset hx
      have hpkgq : pkg ∈ q := hq1 pkg (List.mem_cons_self _ _)
      have hpkgres : pkg ∉ res :=
        (List.disjoint_of_nodup_append hnd) hpkgq
      have hmemq : ∀ x ∈ rest ++ (res ++ [pkg]), x ∈ q ++ res := by
        intro x hx
        rcases List.mem_append.mp hx with hx | hx
        · exact List.mem_append.mpr
            (Or.inl (hq1 x (List.mem_cons_of_mem pkg hx)))
        · rcases List.mem_append.mp hx with hx | hx
          · exact List.mem_append.mpr (Or.inr hx)
          · rcases List.mem_singleton.mp hx with rfl
            exact List.mem_append.mpr (Or.inl hpkgq)
      have hnd' : (rest ++ (res ++ [pkg])).Nodup := by
        have a₁ : (q ++ res).Perm (pkg :: (rest ++ res)) :=
          (hperm.append_right res).symm
        have a₂ : (pkg :: (rest ++ res)).Perm (rest ++ (res ++ [pkg])) := by
          rw [← List.append_assoc]
          exact (List.perm_append_singleton pkg _).symm
        exact (a₁.trans a₂).nodup hnd
      have hdegpkg : deg pkg = 0 := by
        have h1 : deg pkg ≤ 0 :=
          hdeg pkg (List.mem_append.mpr (Or.inl hpkgq))
        have h2 := hcount pkg
        omega
      have hdeps : ∀ d ∈ depsOf all graph pkg, d ∈ res := by
        intro d hd
        have hz : (depsOf all graph pkg).countP
            (fun d => decide (d ∉ res)) = 0 := by
          have := hcount pkg
          omega
        have := List.countP_eq_zero.mp hz d hd
        simpa using this
      have hcons' : edgeConsistent all graph (res ++ [pkg]) :=
        edgeConsistent_snoc hcons hdeps
      have hcount' : ∀ x,
          (procDep ((buildDegRev all graph).2 pkg) deg rest).1 x =
            (((depsOf all graph x).countP
              (fun d => decide (d ∉ res ++ [pkg]))) : Int) := by
        intro x
        rw [procDep_deg_count, count_rev_eq, hcount x]
        have hsplit := countP_split_eq (fun d => decide (d ∉ res)) pkg
          (decide_eq_true hpkgres) (depsOf all graph x)
        rw [decide_notin_append]
        omega
      obtain ⟨ind, ideg, iP⟩ := procDep_invariant (fun x => x ∈ all)
        ((buildDegRev all graph).2 pkg) deg rest (res ++ [pkg]) hnd'
        (fun x hx => hdeg x (hmemq x hx))
        (fun x hx => hsub x (hmemq x (List.mem_append.mpr (Or.inl hx))))
        (fun d hd => hrev pkg d hd)
      have isub : ∀ x ∈ (procDep ((buildDegRev all graph).2 pkg) deg rest).2 ++
          (res ++ [pkg]), x ∈ all := by
        intro x hx
        rcases List.mem_append.mp hx with hx | hx
        · exact iP x hx
        · exact hsub x (hmemq x (List.mem_append.mpr (Or.inr hx)))
      have imem0 : ∀ x ∈ all,
          (procDep ((buildDegRev all graph).2 pkg) deg rest).1 x = 0 →
            x ∈ (procDep ((buildDegRev all graph).2 pkg) deg rest).2 ++
              (res ++ [pkg]) := by
        refine procDep_mem all _ deg rest (res ++ [pkg]) ?_
        intro y hy hdy
        have hmem := hmem0 y hy hdy
        rcases List.mem_append.mp hmem with h1 | h1
        · rcases List.mem_cons.mp (hperm.symm.subset h1) with rfl | h2
          · exact List.mem_append.mpr (Or.inr (List.mem_append.mpr
              (Or.inr (List.mem_singleton.mpr rfl))))
          · exact List.mem_append.mpr (Or.inl h2)
        · exact List.mem_append.mpr
            (Or.inr (List.mem_append.mpr (Or.inl h1)))
      obtain ⟨ha, hb⟩ := topoLoop_main all graph hrev fuel
        (procDep ((buildDegRev all graph).2 pkg) deg rest).2
        (procDep ((buildDegRev all graph).2 pkg) deg rest).1
        (res ++ [pkg]) ind ideg isub hcount' imem0 hcons'
      refine ⟨ha, fun hfuel => hb ?_⟩
      rw [List.length_append]
      simp only [List.length_singleton]
      omega

/-- The Kahn prefix is duplicate-free and drawn from the package set. -/
theorem loopResult_nodup_subset (all : List String)
    (graph : List (String × List String)) (hall : all.Nodup)
    (hkeys : ∀ p ∈ graph, p.1 ∈ all) :
    (loopResult all graph).Nodup ∧ ∀ x ∈ loopResult all graph, x ∈ all := by
  have hrevP : ∀ z y, y ∈ (buildDegRev all graph).2 z → y ∈ all := by
    intro z y hy
    obtain ⟨p, hp, rfl⟩ := buildDegRev_rev_mem all graph z y hy
    exact hkeys p hp
  exact topoLoop_invariant (fun x => x ∈ all)
    (all.length + graph.length) (buildDegRev all graph).2
    (all.filter (fun p => decide ((buildDegRev all graph).1 p = 0)))
    (buildDegRev all graph).1 []
    (by rw [List.append_nil]; exact hall.filter _)
    (by
      intro x hx
      rw [List.append_nil] at hx
      have := (List.mem_filter.mp hx).2
      simp only [decide_eq_true_eq] at this
      omega)
    (fun x hx => (List.mem_filter.mp hx).1)
    (fun x hx => absurd hx (List.not_mem_nil x))
    hrevP

/-- Main soundness/completeness of the Kahn prefix: it is edge-consistent,
and a package misses it exactly when one of its in-set dependencies does. -/
theorem loopResult_main (all : List String)
    (graph : List (String × List String)) (hall : all.Nodup)
    (hkeys : ∀ p ∈ graph, p.1 ∈ all) :
    edgeConsistent all graph (loopResult all graph) ∧
      ∀ x ∈ all, x ∉ loopResult all graph →
        ∃ d ∈ depsOf all graph x, d ∉ loopResult all graph := by
  have hrevP : ∀ z y, y ∈ (buildDegRev all graph).2 z → y ∈ all := by
    intro z y hy
    obtain ⟨p, hp, rfl⟩ := buildDegRev_rev_mem all graph z y hy
    exact hkeys p hp
  obtain ⟨ha, hb⟩ := topoLoop_main all graph hrevP
    (all.length + graph.length)
    (all.filter (fun p => decide ((buildDegRev all graph).1 p = 0)))
    (buildDegRev all graph).1 []
    (by rw [List.append_nil]; exact hall.filter _)
    (by
      intro x hx
      rw [List.append_nil] at hx
      have := (List.mem_filter.mp hx).2
      simp only [decide_eq_true_eq] at this
      omega)
    (by
      intro x hx
      rw [List.append_nil] at hx
      exact (List.mem_filter.mp hx).1)
    (by
      intro x
      rw [deg_eq_depsOf]
      congr 1
      rw [show (fun d : String => decide (d ∉ ([] : List String))) =
        (fun _ : String => true) by
          funext d
          simp]
      rw [List.countP_true])
    (by
      intro x hx hdx
      rw [List.append_nil]
      exact List.mem_filter.mpr ⟨hx, by simpa using hdx⟩)
    (edgeConsistent_nil all graph)
  exact ⟨ha, hb (Nat.le_add_right _ _)⟩

/-- `topological_sort` is the Kahn prefix followed by the lexicographically
sorted unresolved remainder — in both branches of `topoFinish`, since a
full-length prefix leaves an empty remainder. -/
theorem topological_sort_decomp (all : List String)
    (graph : List (String × List String)) (hall : all.Nodup)
    (hkeys : ∀ p ∈ graph, p.1 ∈ all) :
    topological_sort all graph =
      loopResult all graph ++
        (all.filter
          (fun p => decide (p ∉ loopResult all graph))).insertionSort StrLe := by
  rw [topological_sort_loopResult]
  unfold topoFinish
  by_cases h : (loopResult all graph).length = all.length
  · rw [if_pos h]
    obtain ⟨hnd, hsub⟩ := loopResult_nodup_subset all graph hall hkeys
    have hperm : (loopResult all graph).Perm all :=
      (hnd.subperm hsub).perm_of_length_le (le_of_eq h.symm)
    have hfil : all.filter (fun p => decide (p ∉ loopResult all graph)) = [] := by
      rw [List.filter_eq_nil_iff]
      intro a ha
      simp only [decide_eq_true_eq, not_not]
      exact hperm.symm.subset ha
    rw [hfil]
    rw [show List.insertionSort StrLe [] = [] from rfl, List.append_nil]
  · rw [if_neg h]

/-! ### Claim theorems about the Build-Order Resolver -/

/-- Claim C1: for the fixed dependency table (the relevant rows of
`PYTHON_TRANSITIVE_DEPS` are `scikit-learn → [numpy, scipy]` and
`scipy → [numpy]`) and the package set `{numpy, scipy, scikit-learn}`, the
Build-Order Resolver — `build_dependency_graph` followed by
`topological_sort` — outputs `numpy` before `scipy` before `scikit-learn` on
every run: the theorem quantifies over every iteration order of the package
dict (`names`) and of the package set (`all`), which is exactly what varies
between runs of the Python program. -/
theorem claim_C1_resolver_fixed_input (names all : List String)
    (hn : names.Perm ["numpy", "scipy", "scikit-learn"])
    (ha : all.Perm ["numpy", "scipy", "scikit-learn"]) :
    topological_sort all (build_dependency_graph names) =
      ["numpy", "scipy", "scikit-learn"] := by
  have h : topological_sort all (build_dependency_graph names) =
      topological_sort ["numpy", "scipy", "scikit-learn"]
        (build_dependency_graph ["numpy", "scipy", "scikit-learn"]) :=
    topological_sort_congr ha (build_dependency_graph_perm hn)
  rw [h]
  rfl

theorem claim_C1_witness :
    topological_sort ["numpy", "scipy", "scikit-learn"]
      (build_dependency_graph ["scipy", "numpy", "scikit-learn"]) =
      ["numpy", "scipy", "scikit-learn"] :=
  claim_C1_resolver_fixed_input ["scipy", "numpy", "scikit-learn"]
    ["numpy", "scipy", "scikit-learn"]
    (List.Perm.swap "numpy" "scipy" ["scikit-learn"])
    (List.Perm.refl _)

/-- Claim C2, counterexample: the claim asserts that for *every* package set
whose graph contains a cycle alongside packages not on the cycle, the
non-cyclic packages are placed consistently with their real edges and the
cyclic remainder is appended sorted.  Take the cycle `x → y → z → x` together
with the non-cyclic package `a` whose only (real) edge is `a → x` (`a`
depends on `x`).  No node ever reaches in-degree 0, so Kahn's loop emits
nothing and the *entire* set — the non-cyclic `a` included — is appended in
sorted order, producing `[a, x, y, z]`: the non-cyclic package `a` is placed
*before* its dependency `x` (index 0 versus index 1), contradicting the
claimed edge-consistency for non-cyclic packages. -/
theorem claim_C2_counterexample :
    topological_sort ["a", "x", "y", "z"]
        [("x", ["y"]), ("y", ["z"]), ("z", ["x"]), ("a", ["x"])] =
      ["a", "x", "y", "z"] ∧
    (topological_sort ["a", "x", "y", "z"]
        [("x", ["y"]), ("y", ["z"]), ("z", ["x"]), ("a", ["x"])]).indexOf "a" <
      (topological_sort ["a", "x", "y", "z"]
        [("x", ["y"]), ("y", ["z"]), ("z", ["x"]), ("a", ["x"])]).indexOf "x" :=
  ⟨rfl, by decide⟩

/-- Claim C2 as amended: for every duplicate-free package set and every
dependency graph whose keys lie in the set, `topological_sort` returns
without raising; the output is the Kahn-resolved prefix followed by exactly
the unresolved packages in lexicographically sorted order; the resolved
prefix is edge-consistent (every package appears after all of its in-set
dependencies); the unresolved remainder is exactly the packages blocked by
cycles: every member of a self-blocking set — one in which each package has
an in-set dependency inside the set, which covers the cycle members and
every package transitively depending on a cycle — is unresolved, and
conversely every unresolved package has an in-set dependency that is itself
unresolved.  In the sorted tail a dependent may precede its own dependency.
In particular, for a manufactured cycle `a → b → c → a` alongside an
independent package `d`, every run (any iteration order of the set and of
the graph dict) outputs `d` first and then `{a, b, c}` in sorted order. -/
theorem claim_C2_amended (all : List String)
    (graph : List (String × List String)) (hall : all.Nodup)
    (hkeys : ∀ p ∈ graph, p.1 ∈ all) :
    (topological_sort all graph =
        loopResult all graph ++
          (all.filter
            (fun p => decide (p ∉ loopResult all graph))).insertionSort StrLe) ∧
      ((all.filter
          (fun p => decide (p ∉ loopResult all graph))).insertionSort
            StrLe).Sorted StrLe ∧
      edgeConsistent all graph (loopResult all graph) ∧
      (∀ S : String → Prop, (∀ x, S x → ∃ d ∈ depsOf all graph x, S d) →
        ∀ x, S x → x ∉ loopResult all graph) ∧
      (∀ x ∈ all, x ∉ loopResult all graph →
        ∃ d ∈ depsOf all graph x, d ∉ loopResult all graph) ∧
      (∀ (all₂ : List String) (g₂ : List (String × List String)),
        all₂.Perm ["a", "b", "c", "d"] →
        g₂.Perm [("a", ["b"]), ("b", ["c"]), ("c", ["a"])] →
        topological_sort all₂ g₂ = ["d", "a", "b", "c"]) := by
  obtain ⟨hcons, hcomp⟩ := loopResult_main all graph hall hkeys
  refine ⟨topological_sort_decomp all graph hall hkeys,
    List.sorted_insertionSort StrLe _, hcons,
    fun S hS => edgeConsistent_blocked hcons S hS, hcomp,
    fun all₂ g₂ ha hg => ?_⟩
  have h : topological_sort all₂ g₂ =
      topological_sort ["a", "b", "c", "d"]
        [("a", ["b"]), ("b", ["c"]), ("c", ["a"])] :=
    topological_sort_congr ha hg
  rw [h]
  rfl

theorem claim_C2_witness :
    topological_sort ["d", "a", "b", "c"]
        [("b", ["c"]), ("a", ["b"]), ("c", ["a"])] = ["d", "a", "b", "c"] :=
  (claim_C2_amended ["d", "a", "b", "c"]
      [("b", ["c"]), ("a", ["b"]), ("c", ["a"])]
      (by decide) (by decide)).2.2.2.2.2
    ["d", "a", "b", "c"] [("b", ["c"]), ("a", ["b"]), ("c", ["a"])]
    ((List.perm_append_singleton "d" ["a", "b", "c"]).symm)
    (List.Perm.swap ("a", ["b"]) ("b", ["c"]) [("c", ["a"])])

/-- Claim C3: the Build-Order Resolver is deterministic — two invocations on
the same package set and the same dependency table produce identical output
sequences, whatever iteration order Python's sets and dicts happen to expose
on each run.  The per-step tie-break (build-tool allow-list members first,
then alphabetical) makes the sorted ready queue a function of its contents
only, because the sort key is injective. -/
theorem claim_C3_deterministic (names₁ names₂ all₁ all₂ : List String)
    (hn : names₁.Perm names₂) (ha : all₁.Perm all₂) :
    topological_sort all₁ (build_dependency_graph names₁) =
      topological_sort all₂ (build_dependency_graph names₂) :=
  topological_sort_congr ha (build_dependency_graph_perm hn)

theorem claim_C3_witness :
    topological_sort ["pandas", "numpy"] (build_dependency_graph
        ["numpy", "pandas"]) =
      topological_sort ["numpy", "pandas"] (build_dependency_graph
        ["pandas", "numpy"]) :=
  claim_C3_deterministic ["numpy", "pandas"] ["pandas", "numpy"]
    ["pandas", "numpy"] ["numpy", "pandas"]
    (List.Perm.swap "pandas" "numpy" []) (List.Perm.swap "numpy" "pandas" [])

/-- Claim C10: for every (duplicate-free) package set and every dependency
graph over it — including graphs with duplicate edges, which
`build_dependency_graph` produces by extending a package's dependency list
with the same entries twice — the resolver's output is a permutation of the
package names: every package appears exactly once.  The hypothesis
`∀ p ∈ graph, p.1 ∈ all` says the graph is *over* the package set, which
`build_dependency_graph` guarantees (its keys are the lowercased names the
set is built from). -/
theorem claim_C10_output_permutation (all : List String)
    (graph : List (String × List String)) (hall : all.Nodup)
    (hkeys : ∀ p ∈ graph, p.1 ∈ all) :
    (topological_sort all graph).Perm all :=
  topological_sort_perm hall hkeys

theorem claim_C10_witness :
    (topological_sort ["a", "b"] [("a", ["b", "b"])]).Perm ["a", "b"] :=
  claim_C10_output_permutation ["a", "b"] [("a", ["b", "b"])]
    (by decide) (by decide)

/-! ### `WheelBuilder.extract_package_info`

The Python method strips `.tar.gz` / `.zip` / `-fixed` suffixes, special-cases
scikit- and pandas-"fixed" filenames, then matches the regex
`^(.+?)-([0-9]+(?:\.[0-9]+)*(?:[a-zA-Z0-9._-]*))$`.  Because the trailing
class contains both digits and dots, the version sub-pattern accepts exactly
the strings that start with a digit and consist solely of
`[a-zA-Z0-9._-]` characters, and the lazy `(.+?)-` picks the *leftmost* dash
whose suffix is such a string; `lazySplit` below implements exactly that.
The pandas fallback searches (leftmost occurrence) for `pandas[_-]?` followed
by `\d+\.\d+\.\d+`; since `\d+` runs are maximal and `.` is not a digit, no
backtracking arises and `matchDDD` is an exact transcription. -/

/-- A character of the class `[a-zA-Z0-9._-]`. -/
def isVersionChar (c : Char) : Bool :=
  c.isAlpha || c.isDigit || c == '.' || c == '_' || c == '-'

/-- Full match of `[0-9]+(?:\.[0-9]+)*(?:[a-zA-Z0-9._-]*)`. -/
def versionMatch : List Char → Bool
  | [] => false
  | c :: rest => c.isDigit && (c :: rest).all isVersionChar

/-- The lazy `^(.+?)-version$` match: split at the leftmost `-` that is
preceded by a non-empty prefix and followed by a full version match. -/
def lazySplit : List Char → List Char → Option (List Char × List Char)
  | _, [] => none
  | acc, c :: rest =>
    if c == '-' && !acc.isEmpty && versionMatch rest then some (acc.reverse, rest)
    else lazySplit (c :: acc) rest

/-- Match `\d+\.\d+\.\d+` at the head of the list, returning the matched
characters (the regex group). -/
def matchDDD (cs : List Char) : Option (List Char) :=
  let d₁ := cs.takeWhile Char.isDigit
  match cs.dropWhile Char.isDigit with
  | '.' :: r₂ =>
    let d₂ := r₂.takeWhile Char.isDigit
    match r₂.dropWhile Char.isDigit with
    | '.' :: r₄ =>
      let d₃ := r₄.takeWhile Char.isDigit
      if d₁.isEmpty || d₂.isEmpty || d₃.isEmpty then none
      else some (d₁ ++ '.' :: d₂ ++ '.' :: d₃)
    | _ => none
  | _ => none

/-- `re.search(r'pandas[_-]?(\d+\.\d+\.\d+)', s, re.IGNORECASE)`, returning
group 1 of the leftmost match. -/
def pandasSearch : List Char → Option (List Char)
  | [] => none
  | c :: rest =>
    match (if ("pandas".data.isPrefixOf ((c :: rest).map Char.toLower)) then
        (match (c :: rest).drop 6 with
         | d :: ds => if d == '_' || d == '-' then matchDDD ds else matchDDD (d :: ds)
         | [] => none)
      else none) with
    | some v => some v
    | none => pandasSearch rest

/-- Python `base.rsplit('-', 1)`: split at the last dash, if any. -/
def rsplitDash : List Char → Option (List Char × List Char)
  | [] => none
  | c :: rest =>
    match rsplitDash rest with
    | some (a, b) => some (c :: a, b)
    | none => if c == '-' then some ([], rest) else none

/-- `re.match(r'^[0-9]', s)`. -/
def startsWithDigit : List Char → Bool
  | [] => false
  | c :: _ => c.isDigit

/-- `WheelBuilder.extract_package_info`.  Every Python return path yields a
`str` name (the `Optional` in its signature notwithstanding), so the model
returns `String × Option String`. -/
def extract_package_info (filename : String) : String × Option String :=
  let base := replaceStr (replaceStr (replaceStr filename ".tar.gz" "") ".zip" "")
    "-fixed" ""
  if containsStr "scikit" (toLowerStr base) &&
      containsStr "fixed" (toLowerStr filename) then
    ("scikit-learn", none)
  else if containsStr "pandas" (toLowerStr base) &&
      containsStr "fixed" (toLowerStr filename) then
    match pandasSearch base.data with
    | some v => ("pandas", some (String.mk v))
    | none => ("pandas", none)
  else
    match lazySplit [] base.data with
    | some (name, ver) =>
      (replaceStr (String.mk name) "_" "-", some (String.mk ver))
    | none =>
      match rsplitDash base.data with
      | some (p₀, p₁) =>
        if startsWithDigit p₁ then
          (replaceStr (String.mk p₀) "_" "-", some (String.mk p₁))
        else (replaceStr base "_" "-", none)
      | none => (replaceStr base "_" "-", none)

/-- The end-to-end pipeline of the spec's scenario: parse filenames, then
resolve the build order of the parsed names. -/
def resolveFilenames (files : List String) : List String :=
  topological_sort
    ((files.map (fun f => (extract_package_info f).1)).map toLowerStr)
    (build_dependency_graph (files.map (fun f => (extract_package_info f).1)))

/-- Claim C6: `extract_package_info` parses `numpy-1.26.4.tar.gz` to
`(numpy, 1.26.4)` and `scipy-1.14.0.tar.gz` to `(scipy, 1.14.0)` via the
lazy name-version regex; `scikit_learn-1.5.2-fixed.tar.gz` hits the
special-cased "fixed" rule and yields `(scikit-learn, None)`; and the build
order resolved from the three parsed names is
`numpy, scipy, scikit-learn`. -/
theorem claim_C6_end_to_end_scenario :
    extract_package_info "numpy-1.26.4.tar.gz" = ("numpy", some "1.26.4") ∧
    extract_package_info "scipy-1.14.0.tar.gz" = ("scipy", some "1.14.0") ∧
    extract_package_info "scikit_learn-1.5.2-fixed.tar.gz" =
      ("scikit-learn", none) ∧
    resolveFilenames ["numpy-1.26.4.tar.gz", "scipy-1.14.0.tar.gz",
      "scikit_learn-1.5.2-fixed.tar.gz"] = ["numpy", "scipy", "scikit-learn"] :=
  ⟨rfl, rfl, rfl, rfl⟩

/-! ### The Source Fixer (`apply_pandas_fix`, `apply_scikit_learn_fix`)

File contents are modelled at the level the Python code manipulates them:
`readlines()` output as `List (List Char)` (each line keeps its trailing
newline; `writelines` concatenates them back, so the line list determines the
file bytes), and whole-file reads as `List Char`.  The tree walking that
locates `meson.build` / `version.py` and the subprocess probing the
scikit-learn version are outside the content transformation the claim is
about; the probed version enters `scikit_meson_build_fix` as a parameter. -/

/-- The line `    version: '2.2.3',\n` that `apply_pandas_fix` writes. -/
def pandasVersionLine : List Char := "    version: \x272.2.3\x27,\n".data

/-- `WheelBuilder.apply_pandas_fix`, content part: if the file has more than
4 lines and line 5 (index 4) contains `run_command`, replace it with the
hard-coded version line; otherwise leave the file unchanged. -/
def apply_pandas_fix (lines : List (List Char)) : List (List Char) :=
  if 4 < lines.length then
    if containsL "run_command".data (lines.getD 4 []) then
      lines.set 4 pandasVersionLine
    else lines
  else lines

/-- `WheelBuilder.apply_scikit_learn_fix`, version.py part: prepend a shebang
if the content does not already start with `#!/`. -/
def scikit_version_py_fix (content : List Char) : List Char :=
  if "#!/".data.isPrefixOf content then content
  else "#!/usr/bin/env python3\n".data ++ content

/-- `WheelBuilder.apply_scikit_learn_fix`, meson.build part: if the file has
more than 3 lines, overwrite line 4 (index 3) with
`  version: '<version>',\n` where `version` is the probed scikit-learn
version (default `1.9.dev0`). -/
def scikit_meson_build_fix (version : List Char) (lines : List (List Char)) :
    List (List Char) :=
  if 3 < lines.length then
    lines.set 3 ("  version: \x27".data ++ version ++ "\x27,\n".data)
  else lines

/-- Claim C7: each Source Fixer content transformation is idempotent —
applying it a second time leaves the file byte-identical to the state after
the first application.  For `apply_pandas_fix` this is because the rewritten
line no longer contains `run_command`; for the shebang fix because the
prepended content now starts with `#!/`; for the scikit meson.build fix the
line-4 write is unconditional, but with the same probed `version` it writes
the very same bytes again. -/
theorem claim_C7_fixers_idempotent (lines mlines : List (List Char))
    (content version : List Char) :
    apply_pandas_fix (apply_pandas_fix lines) = apply_pandas_fix lines ∧
    scikit_version_py_fix (scikit_version_py_fix content) =
      scikit_version_py_fix content ∧
    scikit_meson_build_fix version (scikit_meson_build_fix version mlines) =
      scikit_meson_build_fix version mlines := by
  refine ⟨?_, ?_, ?_⟩
  · by_cases h : 4 < lines.length
    · by_cases hc : containsL "run_command".data (lines.getD 4 []) = true
      · have h₁ : apply_pandas_fix lines = lines.set 4 pandasVersionLine := by
          unfold apply_pandas_fix
          rw [if_pos h, if_pos hc]
        rw [h₁]
        unfold apply_pandas_fix
        have hlen : 4 < (lines.set 4 pandasVersionLine).length := by
          simpa using h
        have hget : (lines.set 4 pandasVersionLine).getD 4 [] =
            pandasVersionLine := by
          simp [List.getD, List.getElem?_set_self, h]
        rw [if_pos hlen, hget, if_neg (by decide)]
      · have h₁ : apply_pandas_fix lines = lines := by
          unfold apply_pandas_fix
          rw [if_pos h, if_neg hc]
        rw [h₁, h₁]
    · have h₁ : apply_pandas_fix lines = lines := by
        unfold apply_pandas_fix
        rw [if_neg h]
      rw [h₁, h₁]
  · unfold scikit_version_py_fix
    by_cases h : "#!/".data.isPrefixOf content <;> simp [h]
  · unfold scikit_meson_build_fix
    by_cases h : 3 < mlines.length <;> simp [h, List.set_set]

/-! ### The Binary Patcher (`patch_grpcio_wheel`)

The method's effect on the two artifacts (the original wheel at
`wheel_file`, and the repackaged `<stem>_fixed.whl`) is modelled as a state
machine over the oracle of step outcomes.  Control flow transcribed from the
source: a missing `patchelf` returns `False` immediately; the big `try`
covers extraction, the `.so` search, the per-library `patchelf` calls (whose
failures are caught *individually* and only logged, so they neither abort nor
touch the wheel files), repackaging into `fixed_wheel`, then
`wheel_file.unlink()` followed by `fixed_wheel.rename(wheel_file)`, then the
`~/.bashrc` bookkeeping; any exception inside the `try` returns `False`
(the `finally` only removes the scratch directory). -/

structure GrpcEnv where
  patchelfAvailable : Bool
  extractOk : Bool
  soFound : Bool
  repackageOk : Bool
  unlinkOk : Bool
  renameOk : Bool
  bashrcOk : Bool

/-- State of the two wheel artifacts on disk after the call. -/
structure WheelFS where
  originalIntact : Bool
  fixedExists : Bool
  wheelPatched : Bool

/-- `WheelBuilder.patch_grpcio_wheel`: returns the Python boolean result and
the final artifact state. -/
def patch_grpcio_wheel (env : GrpcEnv) : Bool × WheelFS :=
  if !env.patchelfAvailable then (false, ⟨true, false, false⟩)
  else if !env.extractOk then (false, ⟨true, false, false⟩)
  else if !env.soFound then (false, ⟨true, false, false⟩)
  else if !env.repackageOk then (false, ⟨true, false, false⟩)
  else if !env.unlinkOk then (false, ⟨true, true, false⟩)
  else if !env.renameOk then (false, ⟨false, true, false⟩)
  else if !env.bashrcOk then (false, ⟨false, false, true⟩)
  else (true, ⟨false, false, true⟩)

/-- Claim C8: the original wheel is replaced only after the repackaged
replacement has been fully produced.  First conjunct: if any step up to and
including repackaging fails (patchelf unavailable, extraction failure,
`cygrpc*.so` missing, repackaging exception), the call returns `False` and
the original wheel still exists unchanged.  Second conjunct: whenever the
original is no longer intact, repackaging (and every step before it) had
succeeded, i.e. the replacement artifact existed before the original was
deleted. -/
theorem claim_C8_original_preserved_on_failure (env : GrpcEnv) :
    ((env.patchelfAvailable = false ∨ env.extractOk = false ∨
        env.soFound = false ∨ env.repackageOk = false) →
      (patch_grpcio_wheel env).1 = false ∧
        (patch_grpcio_wheel env).2.originalIntact = true) ∧
    ((patch_grpcio_wheel env).2.originalIntact = false →
      env.repackageOk = true) := by
  rcases env with ⟨p, e, s, r, u, n, b⟩
  cases p <;> cases e <;> cases s <;> cases r <;> cases u <;> cases n <;>
    cases b <;> simp [patch_grpcio_wheel]

theorem claim_C8_witness :
    (patch_grpcio_wheel ⟨true, true, true, false, true, true, true⟩).1 =
      false ∧
    (patch_grpcio_wheel
      ⟨true, true, true, false, true, true, true⟩).2.originalIntact = true :=
  (claim_C8_original_preserved_on_failure
    ⟨true, true, true, false, true, true, true⟩).1
    (Or.inr (Or.inr (Or.inr rfl)))

/-! ### The Phase Orchestrator's progress file

`common.py` stores one line `PHASE_<n>_COMPLETE=<timestamp>\n` per completed
phase.  The file is modelled by its `readlines()` decomposition
(`List (List Char)`, every line carrying its trailing newline); `writelines`
concatenates the lines back, so `f.read()` is the `flatten` of the line
list.  The decimal rendering of the phase number (Python's `str(int)`) is
`natStr` below. -/

theorem containsL_iff (p : List Char) :
    ∀ s : List Char, containsL p s = true ↔ p <:+: s
  | [] => by
    simp [containsL, List.isEmpty_iff, List.infix_nil]
  | c :: rest => by
    rw [List.infix_cons_iff]
    simp only [containsL, Bool.or_eq_true, List.isPrefixOf_iff_prefix]
    rw [containsL_iff p rest]

/-- The decimal digit characters. -/
def digitChar : Nat → Char
  | 0 => '0' | 1 => '1' | 2 => '2' | 3 => '3' | 4 => '4'
  | 5 => '5' | 6 => '6' | 7 => '7' | 8 => '8' | _ => '9'

def charVal (c : Char) : Nat :=
  if c = '0' then 0 else if c = '1' then 1 else if c = '2' then 2
  else if c = '3' then 3 else if c = '4' then 4 else if c = '5' then 5
  else if c = '6' then 6 else if c = '7' then 7 else if c = '8' then 8 else 9

/-- Decimal rendering of a natural number (Python's `str`), with fuel (the
number has fewer digits than its own successor, so `natStr` never runs
out). -/
def natStrAux : Nat → Nat → List Char
  | 0, _ => []
  | fuel + 1, n =>
    if n < 10 then [digitChar n]
    else natStrAux fuel (n / 10) ++ [digitChar (n % 10)]

def natStr (n : Nat) : List Char := natStrAux (n + 1) n

theorem charVal_digitChar {d : Nat} (h : d < 10) : charVal (digitChar d) = d := by
  interval_cases d <;> rfl

theorem digitChar_ne_underscore {d : Nat} (h : d < 10) : digitChar d ≠ '_' := by
  interval_cases d <;> decide

def digitsVal (cs : List Char) : Nat := cs.foldl (fun a c => 10 * a + charVal c) 0

theorem digitsVal_append_singleton (cs : List Char) (c : Char) :
    digitsVal (cs ++ [c]) = 10 * digitsVal cs + charVal c := by
  unfold digitsVal
  rw [List.foldl_append]
  rfl

theorem natStrAux_val : ∀ (fuel n : Nat), n < fuel →
    digitsVal (natStrAux fuel n) = n
  | 0, n, h => absurd h (Nat.not_lt_zero n)
  | fuel + 1, n, h => by
    unfold natStrAux
    by_cases h10 : n < 10
    · rw [if_pos h10]
      show digitsVal [digitChar n] = n
      unfold digitsVal
      simp [charVal_digitChar h10]
    · rw [if_neg h10]
      rw [digitsVal_append_singleton]
      have hdiv : n / 10 < fuel := by
        have := Nat.div_lt_self (by omega : 0 < n) (by omega : 1 < 10)
        omega
      rw [natStrAux_val fuel (n / 10) hdiv,
        charVal_digitChar (Nat.mod_lt n (by omega))]
      omega

theorem natStr_inj {m n : Nat} (h : natStr m = natStr n) : m = n := by
  have hm := natStrAux_val (m + 1) m (Nat.lt_succ_self m)
  have hn := natStrAux_val (n + 1) n (Nat.lt_succ_self n)
  unfold natStr at h
  rw [← hm, ← hn, h]

theorem natStrAux_digits : ∀ (fuel n : Nat), n < fuel →
    ∀ c ∈ natStrAux fuel n, ∃ d, d < 10 ∧ c = digitChar d
  | 0, n, h => absurd h (Nat.not_lt_zero n)
  | fuel + 1, n, h => by
    unfold natStrAux
    by_cases h10 : n < 10
    · rw [if_pos h10]
      intro c hc
      rcases List.mem_singleton.mp hc with rfl
      exact ⟨n, h10, rfl⟩
    · rw [if_neg h10]
      intro c hc
      rcases List.mem_append.mp hc with hc | hc
      · have hdiv : n / 10 < fuel := by
          have := Nat.div_lt_self (by omega : 0 < n) (by omega : 1 < 10)
          omega
        exact natStrAux_digits fuel (n / 10) hdiv c hc
      · rcases List.mem_singleton.mp hc with rfl
        exact ⟨n % 10, Nat.mod_lt n (by omega), rfl⟩

theorem natStr_digits (n : Nat) :
    ∀ c ∈ natStr n, ∃ d, d < 10 ∧ c = digitChar d :=
  natStrAux_digits (n + 1) n (Nat.lt_succ_self n)

/-- The line prefix `PHASE_<phase>_COMPLETE=` used by the progress file. -/
def phaseMarker (phase : Nat) : List Char :=
  "PHASE_".data ++ natStr phase ++ "_COMPLETE=".data

/-- Two all-digit strings followed by the same `'_'`-headed tail cannot be
proper prefixes of one another: at the point where the shorter number ends,
one string shows `'_'` and the other a digit. -/
theorem digits_append_prefix_eq {dM dN : List Char} {s : List Char}
    (hN : ∀ c ∈ dN, ∃ d, d < 10 ∧ c = digitChar d)
    (hs : s.head? = some '_')
    (h : dM ++ s <+: dN ++ s) : dM = dN := by
  have hlen : dM.length + s.length ≤ dN.length + s.length := by
    have := h.length_le
    simpa using this
  have hlen' : dM.length ≤ dN.length := by omega
  rcases Nat.lt_or_ge dM.length dN.length with hlt | hge
  · obtain ⟨c, hs'⟩ : ∃ t, s = '_' :: t := by
      cases s with
      | nil => simp at hs
      | cons a t =>
        simp at hs
        exact ⟨t, by rw [hs]⟩
    exfalso
    have hi : dM.length < (dM ++ s).length := by
      simp [hs']
    have hb : dM.length < (dN ++ s).length := by
      rw [List.length_append]
      omega
    have hcmp := h.getElem hi
    have hL : (dM ++ s)[dM.length] = '_' := by
      rw [List.getElem_append_right (Nat.le_refl dM.length)]
      simp [hs']
    have hR : (dN ++ s)[dM.length] = dN[dM.length] :=
      List.getElem_append_left hlt
    rw [hL, hR] at hcmp
    obtain ⟨d, hd, hcd⟩ := hN _ (List.getElem_mem hlt)
    rw [hcd] at hcmp
    exact digitChar_ne_underscore hd hcmp.symm
  · have hlen'' : dM.length = dN.length := Nat.le_antisymm hlen' hge
    have heq : dM ++ s = dN ++ s :=
      h.sublist.eq_of_length (by simp [hlen''])
    exact List.append_cancel_right heq

/-- A line can begin with at most one phase's marker: markers of distinct
phases are never prefixes of the same line (so clearing phase `N` cannot
touch phase `M`'s line, including prefix-number pairs such as 1 and 12). -/
theorem marker_prefix_unique {M N : Nat} {l : List Char}
    (hM : phaseMarker M <+: l) (hN : phaseMarker N <+: l) : M = N := by
  rcases List.prefix_or_prefix_of_prefix hM hN with h | h
  · unfold phaseMarker at h
    rw [List.append_assoc, List.append_assoc,
      List.prefix_append_right_inj] at h
    exact natStr_inj (digits_append_prefix_eq (natStr_digits N) (by rfl) h)
  · unfold phaseMarker at h
    rw [List.append_assoc, List.append_assoc,
      List.prefix_append_right_inj] at h
    exact (natStr_inj (digits_append_prefix_eq (natStr_digits M) (by rfl) h)).symm

/-- `common.is_phase_complete`: substring test of the marker against the
whole file content (`f.read()`); a missing file reads as incomplete. -/
def is_phase_complete (phase : Nat) (file : Option (List (List Char))) : Bool :=
  match file with
  | none => false
  | some lines => containsL (phaseMarker phase) lines.flatten

/-- `common.mark_phase_complete`: read the lines (missing file → `[]`), drop
any line starting with this phase's marker, append the fresh
`PHASE_<n>_COMPLETE=<timestamp>\n` line, write everything back. -/
def mark_phase_complete (phase timestamp : Nat)
    (file : Option (List (List Char))) : List (List Char) :=
  (match file with
    | none => ([] : List (List Char))
    | some ls => ls).filter (fun l => !(phaseMarker phase).isPrefixOf l) ++
    [phaseMarker phase ++ natStr timestamp ++ ['\n']]

/-- `common.should_skip_phase`: with `FORCE_RERUN` set it rewrites the
progress file keeping only the lines that do not start with this phase's
marker and returns `False`; otherwise it returns `is_phase_complete` and
leaves the file untouched.  The pair is (return value, file afterwards). -/
def should_skip_phase (phase : Nat) (forceRerun : Bool)
    (file : Option (List (List Char))) : Bool × Option (List (List Char)) :=
  if forceRerun then
    (false,
      match file with
      | none => none
      | some lines =>
        some (lines.filter (fun l => !(phaseMarker phase).isPrefixOf l)))
  else (is_phase_complete phase file, file)

/-- Claim C9: after `mark_phase_complete N`, `is_phase_complete N` is true;
with `FORCE_RERUN` set, `should_skip_phase N` returns false and clears
exactly phase `N`'s marker: in the rewritten file no line starts with
phase `N`'s marker any more, while the lines recording any other phase `M`'s
completion are left untouched. -/
theorem claim_C9_phase_progress (lines : List (List Char)) (N t M : Nat)
    (hMN : M ≠ N) :
    is_phase_complete N (some (mark_phase_complete N t (some lines))) = true ∧
    (should_skip_phase N true (some lines)).1 = false ∧
    ∃ lines', (should_skip_phase N true (some lines)).2 = some lines' ∧
      lines'.filter (fun l => (phaseMarker M).isPrefixOf l) =
        lines.filter (fun l => (phaseMarker M).isPrefixOf l) ∧
      lines'.filter (fun l => (phaseMarker N).isPrefixOf l) = [] := by
  have key : ∀ l : List Char, (phaseMarker M).isPrefixOf l = true →
      (phaseMarker N).isPrefixOf l = false := by
    intro l hMl
    cases h : (phaseMarker N).isPrefixOf l with
    | false => rfl
    | true =>
      exact absurd (marker_prefix_unique (List.isPrefixOf_iff_prefix.mp hMl)
        (List.isPrefixOf_iff_prefix.mp h)) hMN
  refine ⟨?_, rfl, ?_⟩
  · unfold is_phase_complete mark_phase_complete
    rw [containsL_iff, List.flatten_append]
    refine ⟨(lines.filter (fun l => !(phaseMarker N).isPrefixOf l)).flatten,
      natStr t ++ ['\n'], ?_⟩
    simp [List.append_assoc]
  · refine ⟨lines.filter (fun l => !(phaseMarker N).isPrefixOf l), rfl, ?_, ?_⟩
    · rw [List.filter_filter]
      apply List.filter_congr
      intro l _
      cases hM : (phaseMarker M).isPrefixOf l with
      | false => simp
      | true => simp [key l hM]
    · rw [List.filter_filter]
      rw [List.filter_congr (q := fun _ => false)]
      · exact List.filter_false lines
      · intro l _
        cases h : (phaseMarker N).isPrefixOf l <;> simp [h]

theorem claim_C9_witness :
    is_phase_complete 1 (some (mark_phase_complete 1 7 (some []))) = true ∧
    (should_skip_phase 1 true (some [])).1 = false ∧
    ∃ lines', (should_skip_phase 1 true
        (some ([] : List (List Char)))).2 = some lines' ∧
      lines'.filter (fun l => (phaseMarker 12).isPrefixOf l) =
        ([] : List (List Char)).filter
          (fun l => (phaseMarker 12).isPrefixOf l) ∧
      lines'.filter (fun l => (phaseMarker 1).isPrefixOf l) = [] :=
  claim_C9_phase_progress [] 1 7 12 (by decide)

/-! ### The Package State Prober (`common.python_pkg_installed`)

The probing machinery is modelled by an oracle: the outcome of
`__import__(import_name)` (success, `ImportError` — the only exception class
the source catches there — or any other exception), the combined
stdout+stderr of `pip install --dry-run --no-deps <spec>` (`none` when the
call raises), and whether `pip show <name>` exits with code 0 (`none` when
the call raises; both `pip` calls are wrapped in `try/except Exception` in
the source).  A non-`ImportError` exception from the import escapes the
function, which the `Except` wrapper expresses; everything after the import
check returns a plain `Bool` and is transcribed in
`python_pkg_installed_core`. -/

inductive ImportOutcome
  | ok
  | importError
  | otherError
deriving DecidableEq

structure ProbeEnv where
  importOutcome : String → ImportOutcome
  dryRunOutput : String → Option String
  showExitZero : String → Option Bool

/-- `any(op in version_spec for op in ['>=', '<=', '==', '!=', '<', '>'])`. -/
def hasVersionOp (s : String) : Bool :=
  containsStr ">=" s || containsStr "<=" s || containsStr "==" s ||
    containsStr "!=" s || containsStr "<" s || containsStr ">" s

/-- Body of `python_pkg_installed` after the import attempt.  `vsFalsy`
renders Python's `not version_spec` (`None` or the empty string); the
condition `version_spec and version_spec != pkg_name` renders as
`!v.isEmpty && v != pkg_name`.  The first `match` arm is the
version-operator dry-run branch (ambiguous output counts as satisfied, an
exception falls through); the second is the `pip show` fallback, whose
`returncode == 0` path re-runs the dry-run check when an operator is
present and otherwise returns `True`, every failure ending in the final
`return False`. -/
def python_pkg_installed_core (env : ProbeEnv) (pkg_name : String)
    (version_spec : Option String) : Bool :=
  let import_name := replaceStr pkg_name "-" "_"
  let package_importable : Bool := env.importOutcome import_name == .ok
  let vsFalsy : Bool :=
    match version_spec with
    | none => true
    | some v => v.isEmpty
  if (vsFalsy || version_spec == some pkg_name) && package_importable then true
  else
    match (match version_spec with
      | some v =>
        if (!v.isEmpty && v != pkg_name) && hasVersionOp v then
          match env.dryRunOutput v with
          | some out =>
            if containsStr "Requirement already satisfied" out then some true
            else if containsStr "Would install" out ||
                containsStr "Would upgrade" out then some false
            else some true
          | none => none
        else none
      | none => none : Option Bool) with
    | some b => b
    | none =>
      match env.showExitZero pkg_name with
      | none => false
      | some false => false
      | some true =>
        match version_spec with
        | some v =>
          if (!v.isEmpty && v != pkg_name) && hasVersionOp v then
            match env.dryRunOutput v with
            | some out => containsStr "Requirement already satisfied" out
            | none => false
          else true
        | none => true

/-- `common.python_pkg_installed`.  `.error ()` is a non-`ImportError`
exception escaping from the `__import__` call; every other execution path
returns a boolean. -/
def python_pkg_installed (env : ProbeEnv) (pkg_name : String)
    (version_spec : Option String) : Except Unit Bool :=
  if env.importOutcome (replaceStr pkg_name "-" "_") = .otherError then
    .error ()
  else .ok (python_pkg_installed_core env pkg_name version_spec)

/-- Claim C4, counterexample: the claim's second half says a non-importable
module makes the prober return false, but the `pip show` fallback can say
otherwise: with the module not importable and no constraint at all, a
`pip show numpy` exiting 0 makes the function return `True` (this happens in
practice whenever a distribution's import name differs from its package
name). -/
theorem claim_C4_counterexample :
    python_pkg_installed
      ⟨fun _ => .importError, fun _ => none, fun _ => some true⟩
      "numpy" none = .ok true := rfl

/-- Claim C4 as amended: (1) if the constraint is absent or equals the bare
package name and the module is importable under the dash-to-underscore
normalized name, the prober returns true; (2) if the module is not
importable, the constraint (when present) carries no version operator, and
the `pip show` fallback does not exit with code 0 (nonzero exit or
exception), it returns false.  (The original's "has no version operator" in
the true-direction is narrowed to the source's actual early-return test
`not version_spec or version_spec == pkg_name`, and the false-direction is
conditioned on the `pip show` fallback failing, as the counterexample
forces.) -/
theorem claim_C4_amended (env : ProbeEnv) (pkg : String) (vs : Option String) :
    ((vs = none ∨ vs = some pkg) →
      env.importOutcome (replaceStr pkg "-" "_") = .ok →
      python_pkg_installed env pkg vs = .ok true) ∧
    (env.importOutcome (replaceStr pkg "-" "_") = .importError →
      (∀ v, vs = some v → hasVersionOp v = false) →
      env.showExitZero pkg ≠ some true →
      python_pkg_installed env pkg vs = .ok false) := by
  constructor
  · intro h himp
    unfold python_pkg_installed python_pkg_installed_core
    rw [if_neg (by rw [himp]; intro hc; exact ImportOutcome.noConfusion hc)]
    rcases h with rfl | rfl <;> simp [himp]
  · intro himp hop hshow
    unfold python_pkg_installed python_pkg_installed_core
    rw [if_neg (by rw [himp]; intro hc; exact ImportOutcome.noConfusion hc)]
    have himp' :
        (env.importOutcome (replaceStr pkg "-" "_") == ImportOutcome.ok) =
          false := by
      rw [himp]; rfl
    cases hsz : env.showExitZero pkg with
    | none =>
      rcases vs with _ | v
      · simp [himp', hsz]
      · simp [himp', hsz, hop v rfl]
    | some b =>
      cases b with
      | false =>
        rcases vs with _ | v
        · simp [himp', hsz]
        · simp [himp', hsz, hop v rfl]
      | true => exact absurd hsz hshow

theorem claim_C4_witness :
    python_pkg_installed ⟨fun _ => .ok, fun _ => none, fun _ => none⟩
      "numpy" none = .ok true :=
  (claim_C4_amended ⟨fun _ => .ok, fun _ => none, fun _ => none⟩
    "numpy" none).1 (Or.inl rfl) rfl

/-- Claim C5, counterexample: the claim says no exception ever propagates,
but the source's import attempt catches *only* `ImportError`
(`except ImportError:`); a module whose import raises anything else — a
`SyntaxError` or any exception thrown by module-level code — escapes the
function. -/
theorem claim_C5_counterexample :
    python_pkg_installed
      ⟨fun _ => .otherError, fun _ => none, fun _ => none⟩
      "numpy" none = .error () := rfl

/-- Claim C5 as amended: every exception raised by the subprocess-based
probing (the pip dry-run and pip show calls) is caught and treated as "not
satisfied", and `ImportError` from the module import is treated as "not
importable" — none of those propagate, and the function returns a boolean;
only a non-`ImportError` exception raised during the module import itself
escapes.  First conjunct: whenever the import does not raise such an
exception, the call returns a boolean, whatever the subprocess oracles do.
Second conjunct: when the module is not importable and *every* subprocess
call raises, the result is `False` — failure is mapped to "not
satisfied". -/
theorem claim_C5_amended (env : ProbeEnv) (pkg : String) (vs : Option String) :
    (env.importOutcome (replaceStr pkg "-" "_") ≠ .otherError →
      ∃ b, python_pkg_installed env pkg vs = .ok b) ∧
    (env.importOutcome (replaceStr pkg "-" "_") = .importError →
      (∀ s, env.dryRunOutput s = none) → env.showExitZero pkg = none →
      python_pkg_installed env pkg vs = .ok false) := by
  constructor
  · intro h
    unfold python_pkg_installed
    rw [if_neg h]
    exact ⟨_, rfl⟩
  · intro himp hdry hshow
    unfold python_pkg_installed python_pkg_installed_core
    rw [if_neg (by rw [himp]; intro hc; exact ImportOutcome.noConfusion hc)]
    have himp' :
        (env.importOutcome (replaceStr pkg "-" "_") == ImportOutcome.ok) =
          false := by
      rw [himp]; rfl
    rcases vs with _ | v
    · simp [himp', hshow]
    · by_cases hcond : ((!v.isEmpty && v != pkg) && hasVersionOp v) = true
      · simp [himp', hshow, hcond, hdry v]
      · simp [himp', hshow, hcond]

theorem claim_C5_witness :
    python_pkg_installed
      ⟨fun _ => .importError, fun _ => none, fun _ => none⟩
      "scipy" (some "scipy>=1.0") = .ok false :=
  (claim_C5_amended ⟨fun _ => .importError, fun _ => none, fun _ => none⟩
    "scipy" (some "scipy>=1.0")).2 rfl (fun _ => rfl) rfl
